import Mathlib

/-!
Verification of the Aether expression-language pipeline (`aether.py`):
a regex-ordered lexer (`lex`), a recursive-descent parser
(`Parser.parse_statement` and friends) and a tree-walking evaluator
(`Interpreter.visit`) over a mutable global environment.

Modelling conventions:
* Python strings are `List Char`; only ASCII behaviour is relevant here.
* Python floats are modelled as exact rationals (`ℚ`); the `float()`
  conversion of a NUMBER lexeme is `pyFloat`.  Python raises
  `ZeroDivisionError` on float division by zero, which is modelled as an
  error result.
* Python `None` used where an AST node is expected is `Ast.noneNode`;
  Python `None` used as a value is `Option.none` in `PyVal`.
* Exceptions are modelled with `Except`/explicit error results; the
  distinct Python exception shapes get their own `Err` constructors.
* The recursive-descent parser and the lexer loop are written with an
  explicit fuel parameter so that they are structurally recursive and
  computable by the kernel; `Err.fuelOut` is an artifact of the embedding
  that the supplied fuel provably never reaches.
-/

/-- Token kinds, named exactly as in `TOKEN_TYPES` of the source
(`SKIP` and `ERROR` never become tokens: `SKIP` is discarded and
`ERROR` raises). -/
inductive TokType where
  | NUMBER | STRING | ASSIGN | EQUALS | PLUS | MINUS | MUL | DIV
  | LPAREN | RPAREN | IDENT | NEWLINE
deriving DecidableEq, Repr

/-- A token: `type` and the matched source substring `value`. -/
structure Token where
  type : TokType
  value : List Char
deriving DecidableEq, Repr

/-- The error outcomes of the pipeline.  Each constructor corresponds to a
concrete Python exception raised by the source (or by the Python runtime):
`illegalChar` is the lexer's `SyntaxError`, `expectedToken` is
`Parser.consume`'s `SyntaxError`, `noneTypeAttr` is the `AttributeError`
raised by `token.type` when `token` is `None`, `undefinedVar` and
`alreadyDeclared` are the interpreter's `NameError`s, `typeErrorOperand`
is the `TypeError` from arithmetic on `None`, `zeroDivision` is Python's
`ZeroDivisionError`.  `fuelOut` is an embedding artifact only. -/
inductive Err where
  | fuelOut
  | illegalChar (c : Char)
  | expectedToken (expected got : TokType)
  | noneTypeAttr
  | undefinedVar (name : List Char)
  | alreadyDeclared (name : List Char)
  | typeErrorOperand
  | zeroDivision
deriving DecidableEq, Repr

/-- Characters matched by `[a-zA-Z0-9_]` (the tail of the IDENT rule). -/
def isIdentChar (c : Char) : Bool := c.isAlpha || c.isDigit || c = '_'

/-- Characters matched by `[ \t]` (the SKIP rule). -/
def isSpaceTab (c : Char) : Bool := c = ' ' || c = '\t'

/-- The NUMBER rule `\\d+(\\.\\d+)?` applied at a position whose first
character `c` is a digit: greedily take the digits; take the fractional
group only when a dot with a digit right after follows them.  Returns the
matched token and the rest of the input. -/
def lexNumber (c : Char) (cs : List Char) : Token × List Char :=
  match (c :: cs).dropWhile Char.isDigit with
  | p :: r2 =>
    if p = '.' then
      match r2 with
      | d :: r3 =>
        if d.isDigit then
          (⟨.NUMBER, (c :: cs).takeWhile Char.isDigit
              ++ '.' :: (d :: r3).takeWhile Char.isDigit⟩,
            (d :: r3).dropWhile Char.isDigit)
        else (⟨.NUMBER, (c :: cs).takeWhile Char.isDigit⟩, p :: r2)
      | [] => (⟨.NUMBER, (c :: cs).takeWhile Char.isDigit⟩, p :: r2)
    else (⟨.NUMBER, (c :: cs).takeWhile Char.isDigit⟩, p :: r2)
  | [] => (⟨.NUMBER, (c :: cs).takeWhile Char.isDigit⟩, [])

/-- The STRING rule `"[^"]*"` applied after an opening quote: scan to the
closing quote.  When no closing quote exists the STRING alternative fails
and no later rule matches `'"'` but ERROR, so the quote is an illegal
character. -/
def lexString (cs : List Char) : Except Err (Token × List Char) :=
  match cs.dropWhile (fun x => ¬ x = '"') with
  | q :: r =>
    if q = '"' then
      .ok (⟨.STRING, '"' :: cs.takeWhile (fun x => ¬ x = '"') ++ ['"']⟩, r)
    else .error (.illegalChar '"')
  | [] => .error (.illegalChar '"')

/-- The ASSIGN rule `:=` applied after a `':'`: a lone `':'` matches no
rule but ERROR. -/
def lexAssign (cs : List Char) : Except Err (Token × List Char) :=
  match cs with
  | e :: r => if e = '=' then .ok (⟨.ASSIGN, [':', '=']⟩, r) else .error (.illegalChar ':')
  | [] => .error (.illegalChar ':')

/-- The IDENT rule `[a-zA-Z_][a-zA-Z0-9_]*` applied at a position whose
first character `c` is a letter or underscore. -/
def lexIdent (c : Char) (cs : List Char) : Token × List Char :=
  (⟨.IDENT, c :: cs.takeWhile isIdentChar⟩, cs.dropWhile isIdentChar)

/-- One step of the lexer: the behaviour of the ordered alternation
`NUMBER | STRING | ASSIGN | EQUALS | PLUS | MINUS | MUL | DIV | LPAREN |
RPAREN | IDENT | NEWLINE | SKIP | ERROR` at a position whose first
character is `c` and remaining characters are `cs`.  Returns the produced
token (`none` for SKIP) and the rest of the input, or the `SyntaxError`
for an illegal character.  Per `re`, alternatives are tried in order and
quantifiers are greedy. -/
def lexStep (c : Char) (cs : List Char) : Except Err (Option Token × List Char) :=
  if c.isDigit then .ok (some (lexNumber c cs).1, (lexNumber c cs).2)
  else if c = '"' then
    match lexString cs with
    | .error e => .error e
    | .ok (t, r) => .ok (some t, r)
  else if c = ':' then
    match lexAssign cs with
    | .error e => .error e
    | .ok (t, r) => .ok (some t, r)
  else if c = '=' then .ok (some ⟨.EQUALS, ['=']⟩, cs)
  else if c = '+' then .ok (some ⟨.PLUS, ['+']⟩, cs)
  else if c = '-' then .ok (some ⟨.MINUS, ['-']⟩, cs)
  else if c = '*' then .ok (some ⟨.MUL, ['*']⟩, cs)
  else if c = '/' then .ok (some ⟨.DIV, ['/']⟩, cs)
  else if c = '(' then .ok (some ⟨.LPAREN, ['(']⟩, cs)
  else if c = ')' then .ok (some ⟨.RPAREN, [')']⟩, cs)
  else if c.isAlpha || c = '_' then .ok (some (lexIdent c cs).1, (lexIdent c cs).2)
  else if c = '\n' then .ok (some ⟨.NEWLINE, ['\n']⟩, cs)
  else if isSpaceTab c then
    -- SKIP: [ \t]+ , discarded
    .ok (none, cs.dropWhile isSpaceTab)
  else .error (.illegalChar c)

/-- The lexer loop over `re.finditer`: every position matches some
alternative (ERROR matches any character other than `'\n'`, NEWLINE
matches `'\n'`), so the scan walks the whole input, skipping SKIPs and
collecting tokens, until the first ERROR. -/
def lexGo : ℕ → List Char → Except Err (List Token)
  | 0, _ => .error .fuelOut
  | _ + 1, [] => .ok []
  | fuel + 1, c :: cs =>
    match lexStep c cs with
    | .error e => .error e
    | .ok (none, rest) => lexGo fuel rest
    | .ok (some t, rest) =>
      match lexGo fuel rest with
      | .error e => .error e
      | .ok ts => .ok (t :: ts)

/-- `lex(code)`: tokenize one line of input.  The fuel `length + 1` is
provably sufficient because every step consumes at least one character. -/
def lex (cs : List Char) : Except Err (List Token) := lexGo (cs.length + 1) cs

deriving instance DecidableEq for Except

/-- The numeric conversion `float(value)` applied by the parser to a
NUMBER lexeme (digits optionally followed by `.` and digits), with floats
modelled as exact rationals. -/
def pyFloat (cs : List Char) : ℚ :=
  let ip := cs.takeWhile Char.isDigit
  let whole : ℕ := ip.foldl (fun a c => 10 * a + (c.toNat - 48)) 0
  match cs.dropWhile Char.isDigit with
  | '.' :: fr =>
    (whole : ℚ) + ((fr.foldl (fun a c => 10 * a + (c.toNat - 48)) 0 : ℕ) : ℚ) / (10 : ℚ) ^ fr.length
  | _ => (whole : ℚ)

/-- The AST (`ASTNode` and its subclasses).  `noneNode` stands for the
Python `None` that `parse_factor` returns on its fall-through path and
that can then occur wherever a node is expected.  `binOp` stores the
operator as the consumed token's type, exactly like `BinOp.op`. -/
inductive Ast where
  | noneNode
  | num (value : ℚ)
  | var (name : List Char)
  | binOp (left : Ast) (op : TokType) (right : Ast)
  | assign (name : List Char) (value : Ast) (is_decl : Bool)
deriving DecidableEq, Repr

/-- `Parser.consume(expected_type)`: the parser state is the list of
not-yet-consumed tokens (`self.pos` advancing ≙ dropping the head).
When the tokens are exhausted it returns `None` *without* raising and
without advancing; when an expected type is given and the current token
differs it raises `SyntaxError`. -/
def consume (ts : List Token) (expected : Option TokType) :
    Except Err (Option Token × List Token) :=
  match ts with
  | [] => .ok (none, [])
  | t :: rest =>
    match expected with
    | some e => if t.type = e then .ok (some t, rest) else .error (.expectedToken e t.type)
    | none => .ok (some t, rest)

/-- `Parser.peek()`. -/
def peek (ts : List Token) : Option Token := ts.head?

mutual

/-- `Parser.parse_expression`: a term followed by the `while`-loop over
PLUS/MINUS (the loop is `parseExprLoop`). -/
def parseExpressionF : ℕ → List Token → Except Err (Ast × List Token)
  | 0, _ => .error .fuelOut
  | fuel + 1, ts =>
    match parseTermF fuel ts with
    | .error e => .error e
    | .ok (node, ts1) => parseExprLoopF fuel node ts1

/-- The `while self.peek() and self.peek().type in ('PLUS', 'MINUS')`
loop of `parse_expression`. -/
def parseExprLoopF : ℕ → Ast → List Token → Except Err (Ast × List Token)
  | 0, _, _ => .error .fuelOut
  | fuel + 1, node, ts =>
    match ts with
    | t :: rest =>
      if t.type = .PLUS || t.type = .MINUS then
        match parseTermF fuel rest with
        | .error e => .error e
        | .ok (rhs, ts2) => parseExprLoopF fuel (.binOp node t.type rhs) ts2
      else .ok (node, ts)
    | [] => .ok (node, ts)

/-- `Parser.parse_term`: a factor followed by the loop over MUL/DIV. -/
def parseTermF : ℕ → List Token → Except Err (Ast × List Token)
  | 0, _ => .error .fuelOut
  | fuel + 1, ts =>
    match parseFactorF fuel ts with
    | .error e => .error e
    | .ok (node, ts1) => parseTermLoopF fuel node ts1

/-- The `while self.peek() and self.peek().type in ('MUL', 'DIV')` loop
of `parse_term`. -/
def parseTermLoopF : ℕ → Ast → List Token → Except Err (Ast × List Token)
  | 0, _, _ => .error .fuelOut
  | fuel + 1, node, ts =>
    match ts with
    | t :: rest =>
      if t.type = .MUL || t.type = .DIV then
        match parseFactorF fuel rest with
        | .error e => .error e
        | .ok (rhs, ts2) => parseTermLoopF fuel (.binOp node t.type rhs) ts2
      else .ok (node, ts)
    | [] => .ok (node, ts)

/-- `Parser.parse_factor`.  Faithful to the source's gaps: on exhausted
tokens, `consume()` returns `None` and `token.type` raises
`AttributeError`; on a token that is neither NUMBER, IDENT nor LPAREN
the function falls through and returns Python `None` (`Ast.noneNode`);
the RPAREN `consume` silently returns `None` when the tokens are
exhausted. -/
def parseFactorF : ℕ → List Token → Except Err (Ast × List Token)
  | 0, _ => .error .fuelOut
  | fuel + 1, ts =>
    match consume ts none with
    | .error e => .error e
    | .ok (none, _) => .error .noneTypeAttr
    | .ok (some t, ts1) =>
      if t.type = .NUMBER then .ok (.num (pyFloat t.value), ts1)
      else if t.type = .IDENT then .ok (.var t.value, ts1)
      else if t.type = .LPAREN then
        match parseExpressionF fuel ts1 with
        | .error e => .error e
        | .ok (node, ts2) =>
          match consume ts2 (some .RPAREN) with
          | .error e => .error e
          | .ok (_, ts3) => .ok (node, ts3)
      else .ok (.noneNode, ts1)

end

/-- `Parser.parse_statement`.  On an empty token list, `self.peek()` is
`None` and `token.type` raises `AttributeError`.  When the first token is
IDENT it is consumed before the lookahead; if the next token is neither
ASSIGN (`:=`) nor EQUALS (`=`) the code falls through to
`parse_expression` *from the position after the consumed IDENT*. -/
def parseStatementF (fuel : ℕ) (ts : List Token) : Except Err (Ast × List Token) :=
  match ts with
  | [] => .error .noneTypeAttr
  | t :: rest =>
    if t.type = .IDENT then
      match rest with
      | n :: rest2 =>
        if n.type = .ASSIGN then
          match parseExpressionF fuel rest2 with
          | .error e => .error e
          | .ok (v, ts1) => .ok (.assign t.value v true, ts1)
        else if n.type = .EQUALS then
          match parseExpressionF fuel rest2 with
          | .error e => .error e
          | .ok (v, ts1) => .ok (.assign t.value v false, ts1)
        else parseExpressionF fuel rest
      | [] => parseExpressionF fuel rest
    else parseExpressionF fuel ts

/-- `parse_statement` with its provably sufficient fuel. -/
def parseStatement (ts : List Token) : Except Err (Ast × List Token) :=
  parseStatementF (4 * ts.length + 8) ts

/-- A Python value as produced by the interpreter: a float (`some q`) or
`None`. -/
abbrev PyVal := Option ℚ

/-- `Interpreter.globals`: an insertion-ordered dict from names to
values. -/
abbrev Env := List (List Char × PyVal)

/-- Dict membership/lookup (`name in self.globals` /
`self.globals[name]`). -/
def envGet : Env → List Char → Option PyVal
  | [], _ => none
  | (k, v) :: rest, name => if k = name then some v else envGet rest name

/-- Dict assignment `self.globals[name] = val`: update in place if the
key is present, else append. -/
def envSet : Env → List Char → PyVal → Env
  | [], name, v => [(name, v)]
  | (k, w) :: rest, name, v =>
    if k = name then (k, v) :: rest else (k, w) :: envSet rest name v

/-- Python `left + right` on interpreter values: floats add, anything
involving `None` is a `TypeError`. -/
def pyAdd : PyVal → PyVal → Except Err PyVal
  | some a, some b => .ok (some (a + b))
  | _, _ => .error .typeErrorOperand

/-- Python `left - right`. -/
def pySub : PyVal → PyVal → Except Err PyVal
  | some a, some b => .ok (some (a - b))
  | _, _ => .error .typeErrorOperand

/-- Python `left * right`. -/
def pyMul : PyVal → PyVal → Except Err PyVal
  | some a, some b => .ok (some (a * b))
  | _, _ => .error .typeErrorOperand

/-- Python `left / right`: raises `ZeroDivisionError` when the divisor is
zero (Python's convention for float division). -/
def pyDiv : PyVal → PyVal → Except Err PyVal
  | some a, some b => if b = 0 then .error .zeroDivision else .ok (some (a / b))
  | _, _ => .error .typeErrorOperand

/-- `Interpreter.visit`.  Returns the result (or the raised exception)
together with the environment as mutated so far — a raise does not roll
back earlier `globals` mutations.  A node matching no `isinstance` check
(that is, `noneNode`, or a `binOp` whose operator is none of the four)
makes the Python function fall through and return `None`. -/
def visit (env : Env) : Ast → (Except Err PyVal) × Env
  | .noneNode => (.ok none, env)
  | .num v => (.ok (some v), env)
  | .var name =>
    match envGet env name with
    | none => (.error (.undefinedVar name), env)
    | some v => (.ok v, env)
  | .binOp l op r =>
    match visit env l with
    | (.error e, env1) => (.error e, env1)
    | (.ok lv, env1) =>
      match visit env1 r with
      | (.error e, env2) => (.error e, env2)
      | (.ok rv, env2) =>
        if op = .PLUS then (pyAdd lv rv, env2)
        else if op = .MINUS then (pySub lv rv, env2)
        else if op = .MUL then (pyMul lv rv, env2)
        else if op = .DIV then (pyDiv lv rv, env2)
        else (.ok none, env2)
  | .assign name value is_decl =>
    match visit env value with
    | (.error e, env1) => (.error e, env1)
    | (.ok val, env1) =>
      if is_decl && (envGet env1 name).isSome then
        (.error (.alreadyDeclared name), env1)
      else (.ok val, envSet env1 name val)

/-- One iteration of `run_aether`'s loop on a non-sentinel line: lex,
parse, evaluate.  Returns the printed result or the caught exception,
together with the environment (unchanged unless `visit` mutated it). -/
def runLine (text : List Char) (env : Env) : (Except Err PyVal) × Env :=
  match lex text with
  | .error e => (.error e, env)
  | .ok toks =>
    match parseStatement toks with
    | .error e => (.error e, env)
    | .ok (ast, _) => visit env ast

/-- `true` when no `Assign` node occurs anywhere in the tree. -/
def NoAssign : Ast → Bool
  | .noneNode => true
  | .num _ => true
  | .var _ => true
  | .binOp l _ r => NoAssign l && NoAssign r
  | .assign _ _ _ => false


/-! ### The arithmetic fragment: spec-side grammar and reference value

These definitions follow the spec's grammar of variable-free arithmetic
lines (`expression := term (('+'|'-') term)*`, `term := factor
(('*'|'/') factor)*`, `factor := NUMBER | '(' expression ')'`) and the
spec's notion of the mathematically correct value under standard
precedence and left-associativity.  They are the reference side of the
claim; the code side is `lex`/`parseStatement`/`visit` above. -/

/-- A decimal digit. -/
abbrev Digit := Fin 10

/-- A NUMBER literal: integer digits and optional fractional digits. -/
structure Numeral where
  ip : List Digit
  fp : Option (List Digit)

/-- Well-formed numeral: nonempty integer part, and a nonempty
fractional part when one is present (the NUMBER rule demands a digit
after the dot). -/
def Numeral.wf (n : Numeral) : Bool :=
  !n.ip.isEmpty && (match n.fp with | some f => !f.isEmpty | none => true)

/-- The character of a digit. -/
def digitChar (d : Digit) : Char := Char.ofNat (48 + d.val)

/-- The fractional characters of a numeral (empty when there is no
fractional part). -/
def fracChars : Option (List Digit) → List Char
  | some f => '.' :: f.map digitChar
  | none => []

/-- The source text of a numeral. -/
def Numeral.lexeme (n : Numeral) : List Char := n.ip.map digitChar ++ fracChars n.fp

/-- The natural number denoted by a digit string. -/
def natOfDigits (ds : List Digit) : ℕ := ds.foldl (fun a d => 10 * a + d.val) 0

/-- The real value denoted by a decimal numeral. -/
def Numeral.val (n : Numeral) : ℚ :=
  match n.fp with
  | none => (natOfDigits n.ip : ℚ)
  | some f => (natOfDigits n.ip : ℚ) + (natOfDigits f : ℚ) / (10 : ℚ) ^ f.length

mutual
/-- `expression := term (('+'|'-') term)*`, written left-recursively:
`AExpr.op e true t` is `e + t` and `AExpr.op e false t` is `e - t`, so
left-associativity is built into the shape. -/
inductive AExpr where
  | base : ATerm → AExpr
  | op : AExpr → Bool → ATerm → AExpr
/-- `term := factor (('*'|'/') factor)*` (`true` is `*`, `false` `/`). -/
inductive ATerm where
  | base : AFactor → ATerm
  | op : ATerm → Bool → AFactor → ATerm
/-- `factor := NUMBER | '(' expression ')'`. -/
inductive AFactor where
  | num : Numeral → AFactor
  | paren : AExpr → AFactor
end

mutual
/-- All numerals in the expression are well formed. -/
def wfE : AExpr → Bool
  | .base t => wfT t
  | .op e _ t => wfE e && wfT t
def wfT : ATerm → Bool
  | .base f => wfF f
  | .op t _ f => wfT t && wfF f
def wfF : AFactor → Bool
  | .num n => n.wf
  | .paren e => wfE e
end

def plusTok : Token := ⟨.PLUS, ['+']⟩
def minusTok : Token := ⟨.MINUS, ['-']⟩
def mulTok : Token := ⟨.MUL, ['*']⟩
def divTok : Token := ⟨.DIV, ['/']⟩
def lparenTok : Token := ⟨.LPAREN, ['(']⟩
def rparenTok : Token := ⟨.RPAREN, [')']⟩

/-- The additive-operator token selected by `b`. -/
def pmTok (b : Bool) : Token := if b then plusTok else minusTok

/-- The multiplicative-operator token selected by `b`. -/
def mdTok (b : Bool) : Token := if b then mulTok else divTok

mutual
/-- The token sequence of an arithmetic expression. -/
def tokE : AExpr → List Token
  | .base t => tokT t
  | .op e b t => tokE e ++ pmTok b :: tokT t
def tokT : ATerm → List Token
  | .base f => tokF f
  | .op t b f => tokT t ++ mdTok b :: tokF f
def tokF : AFactor → List Token
  | .num n => [⟨.NUMBER, n.lexeme⟩]
  | .paren e => lparenTok :: (tokE e ++ [rparenTok])
end

mutual
/-- The AST the parser is expected to build for an arithmetic
expression: the left-associated tree of `BinOp`s. -/
def astE : AExpr → Ast
  | .base t => astT t
  | .op e b t => .binOp (astE e) (if b then .PLUS else .MINUS) (astT t)
def astT : ATerm → Ast
  | .base f => astF f
  | .op t b f => .binOp (astT t) (if b then .MUL else .DIV) (astF f)
def astF : AFactor → Ast
  | .num n => .num (pyFloat n.lexeme)
  | .paren e => astE e
end

mutual
/-- The mathematically correct value of an arithmetic expression under
standard operator precedence and left-associativity, per the spec
(`none` when a division by zero occurs, where no real value exists). -/
def refValE : AExpr → Option ℚ
  | .base t => refValT t
  | .op e b t =>
    match refValE e, refValT t with
    | some a, some c => some (if b then a + c else a - c)
    | _, _ => none
def refValT : ATerm → Option ℚ
  | .base f => refValF f
  | .op t b f =>
    match refValT t, refValF f with
    | some a, some c => if b then some (a * c) else (if c = 0 then none else some (a / c))
    | _, _ => none
def refValF : AFactor → Option ℚ
  | .num n => some n.val
  | .paren e => refValE e
end

/-- Render a token sequence as one line of source text, one space after
each token. -/
def renderToks : List Token → List Char
  | [] => []
  | t :: ts => t.value ++ ' ' :: renderToks ts

/-- The source line of an arithmetic expression. -/
def renderE (e : AExpr) : List Char := renderToks (tokE e)

/-- The leftmost term of an expression. -/
def ltermE : AExpr → ATerm
  | .base t => t
  | .op e _ _ => ltermE e

/-- The remaining operator/term pairs of an expression, left to right. -/
def spineE : AExpr → List (Bool × ATerm)
  | .base _ => []
  | .op e b t => spineE e ++ [(b, t)]

/-- The leftmost factor of a term. -/
def lfacT : ATerm → AFactor
  | .base f => f
  | .op t _ _ => lfacT t

/-- The remaining operator/factor pairs of a term, left to right. -/
def spineT : ATerm → List (Bool × AFactor)
  | .base _ => []
  | .op t b f => spineT t ++ [(b, f)]

/-- Tokens of an expression spine. -/
def spineToksE : List (Bool × ATerm) → List Token
  | [] => []
  | p :: sp => pmTok p.1 :: (tokT p.2 ++ spineToksE sp)

/-- Tokens of a term spine. -/
def spineToksT : List (Bool × AFactor) → List Token
  | [] => []
  | p :: sp => mdTok p.1 :: (tokF p.2 ++ spineToksT sp)

/-- Left fold of an expression spine onto an accumulated AST. -/
def foldSpineE (a : Ast) (sp : List (Bool × ATerm)) : Ast :=
  sp.foldl (fun acc p => .binOp acc (if p.1 then .PLUS else .MINUS) (astT p.2)) a

/-- Left fold of a term spine onto an accumulated AST. -/
def foldSpineT (a : Ast) (sp : List (Bool × AFactor)) : Ast :=
  sp.foldl (fun acc p => .binOp acc (if p.1 then .MUL else .DIV) (astF p.2)) a

mutual
/-- Structure size, the measure for the strong induction below. -/
def sizeE : AExpr → ℕ
  | .base t => sizeT t + 1
  | .op e _ t => sizeE e + sizeT t + 1
def sizeT : ATerm → ℕ
  | .base f => sizeF f + 1
  | .op t _ f => sizeT t + sizeF f + 1
def sizeF : AFactor → ℕ
  | .num _ => 1
  | .paren e => sizeE e + 1
end

/-- The tokens after an expression must not begin with an operator for
the parser's loops to stop there. -/
def StopsExpr (ts : List Token) : Prop :=
  match ts with
  | [] => True
  | t :: _ => t.type ≠ .PLUS ∧ t.type ≠ .MINUS ∧ t.type ≠ .MUL ∧ t.type ≠ .DIV

/-- The tokens after a term must not begin with `*` or `/`. -/
def StopsTerm (ts : List Token) : Prop :=
  match ts with
  | [] => True
  | t :: _ => t.type ≠ .MUL ∧ t.type ≠ .DIV

/-- `GoodTok t`: `t` is a token an arithmetic line can contain. -/
def GoodTok (t : Token) : Prop :=
  (∃ nm : Numeral, nm.wf = true ∧ t = ⟨.NUMBER, nm.lexeme⟩)
  ∨ t = plusTok ∨ t = minusTok ∨ t = mulTok ∨ t = divTok ∨ t = lparenTok ∨ t = rparenTok

/-- Characters that some token class (other than STRING) can contain:
anything else can never be consumed outside a string literal. -/
def goodChar (c : Char) : Bool :=
  c.isDigit || c.isAlpha || c = '_' || c = '.' || c = ':' || c = '=' || c = '+' || c = '-'
    || c = '*' || c = '/' || c = '(' || c = ')' || c = ' ' || c = '\t' || c = '\n'


/-! ### Generic list lemmas -/

theorem dropWhile_length_le (p : Char → Bool) (l : List Char) :
    (l.dropWhile p).length ≤ l.length := by
  induction l with
  | nil => simp
  | cons a l ih =>
    rw [List.dropWhile_cons]
    split
    · exact Nat.le_succ_of_le ih
    · simp

theorem takeWhile_append_of_all (p : Char → Bool) (l₁ l₂ : List Char)
    (h₁ : ∀ a ∈ l₁, p a = true)
    (h₂ : ∀ b, l₂.head? = some b → p b = false) :
    (l₁ ++ l₂).takeWhile p = l₁ ∧ (l₁ ++ l₂).dropWhile p = l₂ := by
  induction l₁ with
  | nil =>
    simp only [List.nil_append]
    cases l₂ with
    | nil => simp
    | cons b l => rw [List.takeWhile_cons, List.dropWhile_cons, h₂ b rfl]; simp
  | cons a l ih =>
    have ha : p a = true := h₁ a (by simp)
    have ih' := ih (fun x hx => h₁ x (by simp [hx]))
    simp only [List.cons_append, List.takeWhile_cons, List.dropWhile_cons, ha, if_pos]
    exact ⟨by rw [ih'.1], by rw [ih'.2]⟩


/-! ### Lexer machinery -/

theorem lexNumber_length {c : Char} {cs : List Char} (hc : c.isDigit = true) :
    (lexNumber c cs).2.length ≤ cs.length := by
  have hdw : ((c :: cs).dropWhile Char.isDigit) = cs.dropWhile Char.isDigit := by
    rw [List.dropWhile_cons, if_pos hc]
  have hlen : (cs.dropWhile Char.isDigit).length ≤ cs.length := dropWhile_length_le _ _
  unfold lexNumber
  rw [hdw]
  split
  case _ p r2 heq =>
    split
    · split
      case _ d r3 =>
        split
        · have h1 : (p :: d :: r3).length ≤ cs.length := by rw [← heq]; exact hlen
          have h2 : ((d :: r3).dropWhile Char.isDigit).length ≤ (d :: r3).length :=
            dropWhile_length_le _ _
          simp only [List.length_cons] at h1 h2 ⊢
          omega
        · rw [← heq]; exact hlen
      case _ => rw [← heq]; exact hlen
    · rw [← heq]; exact hlen
  case _ => simp

theorem lexString_length {cs : List Char} {t : Token} {r : List Char}
    (h : lexString cs = .ok (t, r)) : r.length ≤ cs.length := by
  have hlen : (cs.dropWhile (fun x => ¬ x = '"')).length ≤ cs.length := dropWhile_length_le _ _
  unfold lexString at h
  split at h
  case _ q r2 heq =>
    split at h
    · cases h
      rw [heq] at hlen
      simp only [List.length_cons] at hlen
      omega
    · cases h
  case _ => cases h

theorem lexAssign_length {cs : List Char} {t : Token} {r : List Char}
    (h : lexAssign cs = .ok (t, r)) : r.length ≤ cs.length := by
  unfold lexAssign at h
  split at h
  case _ e r2 =>
    split at h
    · cases h; simp
    · cases h
  case _ => cases h


theorem lexStep_length {c : Char} {cs : List Char} {t : Option Token} {rest : List Char}
    (h : lexStep c cs = .ok (t, rest)) : rest.length ≤ cs.length := by
  unfold lexStep at h
  by_cases h1 : c.isDigit = true
  · rw [if_pos h1] at h; cases h; exact lexNumber_length h1
  rw [if_neg h1] at h
  by_cases h2 : c = '"'
  · rw [if_pos h2] at h
    match hs : lexString cs with
    | .error e => rw [hs] at h; cases h
    | .ok (t2, r2) => rw [hs] at h; cases h; exact lexString_length hs
  rw [if_neg h2] at h
  by_cases h3 : c = ':'
  · rw [if_pos h3] at h
    match hs : lexAssign cs with
    | .error e => rw [hs] at h; cases h
    | .ok (t2, r2) => rw [hs] at h; cases h; exact lexAssign_length hs
  rw [if_neg h3] at h
  by_cases h4 : c = '='
  · rw [if_pos h4] at h; cases h; exact le_refl _
  rw [if_neg h4] at h
  by_cases h5 : c = '+'
  · rw [if_pos h5] at h; cases h; exact le_refl _
  rw [if_neg h5] at h
  by_cases h6 : c = '-'
  · rw [if_pos h6] at h; cases h; exact le_refl _
  rw [if_neg h6] at h
  by_cases h7 : c = '*'
  · rw [if_pos h7] at h; cases h; exact le_refl _
  rw [if_neg h7] at h
  by_cases h8 : c = '/'
  · rw [if_pos h8] at h; cases h; exact le_refl _
  rw [if_neg h8] at h
  by_cases h9 : c = '('
  · rw [if_pos h9] at h; cases h; exact le_refl _
  rw [if_neg h9] at h
  by_cases h10 : c = ')'
  · rw [if_pos h10] at h; cases h; exact le_refl _
  rw [if_neg h10] at h
  by_cases h11 : (c.isAlpha || c = '_') = true
  · rw [if_pos h11] at h; cases h; exact dropWhile_length_le _ _
  rw [if_neg h11] at h
  by_cases h12 : c = '\n'
  · rw [if_pos h12] at h; cases h; exact le_refl _
  rw [if_neg h12] at h
  by_cases h13 : isSpaceTab c = true
  · rw [if_pos h13] at h; cases h; exact dropWhile_length_le _ _
  rw [if_neg h13] at h
  cases h

theorem lexGo_congr : ∀ (f g : ℕ) (cs : List Char), cs.length < f → cs.length < g →
    lexGo f cs = lexGo g cs := by
  intro f
  induction f with
  | zero => intro g cs h; omega
  | succ f ih =>
    intro g cs hf hg
    match g, hg with
    | g + 1, hg2 =>
      cases cs with
      | nil => rfl
      | cons c cs =>
        show (match lexStep c cs with
          | Except.error e => Except.error e
          | Except.ok (none, rest) => lexGo f rest
          | Except.ok (some t, rest) =>
            match lexGo f rest with
            | Except.error e => Except.error e
            | Except.ok ts => Except.ok (t :: ts)) = (match lexStep c cs with
          | Except.error e => Except.error e
          | Except.ok (none, rest) => lexGo g rest
          | Except.ok (some t, rest) =>
            match lexGo g rest with
            | Except.error e => Except.error e
            | Except.ok ts => Except.ok (t :: ts))
        match hstep : lexStep c cs with
        | .error e => rfl
        | .ok (none, rest) =>
          have hr := lexStep_length hstep
          simp only [List.length_cons] at hf hg2
          exact ih g rest (by omega) (by omega)
        | Except.ok (some t, rest) =>
          have hr := lexStep_length hstep
          simp only [List.length_cons] at hf hg2
          simp only [ih g rest (by omega) (by omega)]

/-- The one-step unfolding of `lex`: the behaviour of the scan on a
nonempty input, stated fuel-free. -/
theorem lex_cons (c : Char) (cs : List Char) :
    lex (c :: cs) = (match lexStep c cs with
      | Except.error e => Except.error e
      | Except.ok (none, rest) => lex rest
      | Except.ok (some t, rest) =>
        match lex rest with
        | Except.error e => Except.error e
        | Except.ok ts => Except.ok (t :: ts)) := by
  show (match lexStep c cs with
    | Except.error e => Except.error e
    | Except.ok (none, rest) => lexGo (cs.length + 1) rest
    | Except.ok (some t, rest) =>
      match lexGo (cs.length + 1) rest with
      | Except.error e => Except.error e
      | Except.ok ts => Except.ok (t :: ts)) = _
  match hstep : lexStep c cs with
  | .error e => rfl
  | .ok (none, rest) =>
    have hr := lexStep_length hstep
    simp only []
    exact lexGo_congr _ _ rest (by omega) (by omega)
  | Except.ok (some t, rest) =>
    have hr := lexStep_length hstep
    simp only []
    simp only [lexGo_congr (cs.length + 1) (rest.length + 1) rest (by omega) (by omega)]
    rfl

/-! ### Parser output shape -/

/-- The expression grammar (everything below `parse_statement`) never
builds an `Assign` node. -/
theorem parse_noAssign : ∀ f : ℕ,
    (∀ ts n ts', parseFactorF f ts = .ok (n, ts') → NoAssign n = true)
    ∧ (∀ n0 ts n ts', NoAssign n0 = true →
        parseTermLoopF f n0 ts = .ok (n, ts') → NoAssign n = true)
    ∧ (∀ ts n ts', parseTermF f ts = .ok (n, ts') → NoAssign n = true)
    ∧ (∀ n0 ts n ts', NoAssign n0 = true →
        parseExprLoopF f n0 ts = .ok (n, ts') → NoAssign n = true)
    ∧ (∀ ts n ts', parseExpressionF f ts = .ok (n, ts') → NoAssign n = true) := by
  intro f
  induction f with
  | zero =>
    refine ⟨?_, ?_, ?_, ?_, ?_⟩
    · intro ts n ts' h; simp [parseFactorF] at h
    · intro n0 ts n ts' h0 h; simp [parseTermLoopF] at h
    · intro ts n ts' h; simp [parseTermF] at h
    · intro n0 ts n ts' h0 h; simp [parseExprLoopF] at h
    · intro ts n ts' h; simp [parseExpressionF] at h
  | succ f ih =>
    obtain ⟨ihF, ihTL, ihT, ihEL, ihE⟩ := ih
    refine ⟨?_, ?_, ?_, ?_, ?_⟩
    · -- parse_factor
      intro ts n ts' h
      unfold parseFactorF at h
      cases ts with
      | nil => simp [consume] at h
      | cons t rest =>
        simp only [consume] at h
        by_cases h1 : t.type = .NUMBER
        · rw [if_pos h1] at h; cases h; rfl
        rw [if_neg h1] at h
        by_cases h2 : t.type = .IDENT
        · rw [if_pos h2] at h; cases h; rfl
        rw [if_neg h2] at h
        by_cases h3 : t.type = .LPAREN
        · rw [if_pos h3] at h
          match he : parseExpressionF f rest with
          | .error e => rw [he] at h; cases h
          | .ok (node, ts2) =>
            rw [he] at h
            simp only [] at h
            cases ts2 with
            | nil => simp only [] at h; cases h; exact ihE _ _ _ he
            | cons t2 r2 =>
              simp only [] at h
              by_cases h4 : t2.type = .RPAREN
              · rw [if_pos h4] at h; simp only [] at h; cases h; exact ihE _ _ _ he
              · rw [if_neg h4] at h; cases h
        · rw [if_neg h3] at h; cases h; rfl
    · -- parse_term loop
      intro n0 ts n ts' h0 h
      unfold parseTermLoopF at h
      cases ts with
      | nil => cases h; exact h0
      | cons t rest =>
        simp only [] at h
        by_cases h1 : (t.type = .MUL || t.type = .DIV) = true
        · rw [if_pos h1] at h
          match he : parseFactorF f rest with
          | .error e => rw [he] at h; cases h
          | .ok (rhs, ts2) =>
            rw [he] at h
            simp only [] at h
            have hrhs := ihF rest rhs ts2 he
            exact ihTL (.binOp n0 t.type rhs) ts2 n ts'
              (by simp [NoAssign, h0, hrhs]) h
        · rw [if_neg h1] at h; cases h; exact h0
    · -- parse_term
      intro ts n ts' h
      unfold parseTermF at h
      match he : parseFactorF f ts with
      | .error e => rw [he] at h; cases h
      | .ok (node, ts1) =>
        rw [he] at h
        simp only [] at h
        exact ihTL node ts1 n ts' (ihF ts node ts1 he) h
    · -- parse_expression loop
      intro n0 ts n ts' h0 h
      unfold parseExprLoopF at h
      cases ts with
      | nil => cases h; exact h0
      | cons t rest =>
        simp only [] at h
        by_cases h1 : (t.type = .PLUS || t.type = .MINUS) = true
        · rw [if_pos h1] at h
          match he : parseTermF f rest with
          | .error e => rw [he] at h; cases h
          | .ok (rhs, ts2) =>
            rw [he] at h
            simp only [] at h
            have hrhs := ihT rest rhs ts2 he
            exact ihEL (.binOp n0 t.type rhs) ts2 n ts'
              (by simp [NoAssign, h0, hrhs]) h
        · rw [if_neg h1] at h; cases h; exact h0
    · -- parse_expression
      intro ts n ts' h
      unfold parseExpressionF at h
      match he : parseTermF f ts with
      | .error e => rw [he] at h; cases h
      | .ok (node, ts1) =>
        rw [he] at h
        simp only [] at h
        exact ihEL node ts1 n ts' (ihT ts node ts1 he) h

/-- Shape of `parse_statement` results: an `Assign` can only be the root,
and its value subtree is assign-free; any non-`Assign` root is
assign-free throughout. -/
theorem parseStatement_shape {ts : List Token} {node : Ast} {rest : List Token}
    (h : parseStatement ts = .ok (node, rest)) :
    (∃ name v d, node = .assign name v d ∧ NoAssign v = true) ∨ NoAssign node = true := by
  unfold parseStatement parseStatementF at h
  cases ts with
  | nil => cases h
  | cons t r =>
    simp only [] at h
    by_cases h1 : t.type = .IDENT
    · rw [if_pos h1] at h
      cases r with
      | nil =>
        exact Or.inr ((parse_noAssign _).2.2.2.2 _ node rest h)
      | cons n2 r2 =>
        simp only [] at h
        by_cases h2 : n2.type = .ASSIGN
        · rw [if_pos h2] at h
          match he : parseExpressionF (4 * (t :: n2 :: r2).length + 8) r2 with
          | .error e => rw [he] at h; cases h
          | .ok (v, ts1) =>
            rw [he] at h
            simp only [] at h
            cases h
            exact Or.inl ⟨t.value, v, true, rfl, (parse_noAssign _).2.2.2.2 _ v _ he⟩
        rw [if_neg h2] at h
        by_cases h3 : n2.type = .EQUALS
        · rw [if_pos h3] at h
          match he : parseExpressionF (4 * (t :: n2 :: r2).length + 8) r2 with
          | .error e => rw [he] at h; cases h
          | .ok (v, ts1) =>
            rw [he] at h
            simp only [] at h
            cases h
            exact Or.inl ⟨t.value, v, false, rfl, (parse_noAssign _).2.2.2.2 _ v _ he⟩
        · rw [if_neg h3] at h
          exact Or.inr ((parse_noAssign _).2.2.2.2 _ node rest h)
    · rw [if_neg h1] at h
      exact Or.inr ((parse_noAssign _).2.2.2.2 _ node rest h)

/-! ### Environment and evaluator lemmas -/

theorem envGet_envSet (env : Env) (name k : List Char) (v : PyVal) :
    envGet (envSet env name v) k = if k = name then some v else envGet env k := by
  induction env with
  | nil =>
    show (if name = k then some v else envGet [] k) = (if k = name then some v else envGet [] k)
    by_cases h : k = name
    · subst h; simp
    · rw [if_neg (Ne.symm h), if_neg h]
  | cons p rest ih =>
    obtain ⟨pk, pv⟩ := p
    show envGet (if pk = name then (pk, v) :: rest else (pk, pv) :: envSet rest name v) k = _
    by_cases hpk : pk = name
    · subst hpk
      rw [if_pos rfl]
      show (if pk = k then some v else envGet rest k)
        = (if k = pk then some v else (if pk = k then some pv else envGet rest k))
      by_cases hk : pk = k
      · subst hk; simp
      · rw [if_neg hk, if_neg (Ne.symm hk), if_neg hk]
    · rw [if_neg hpk]
      show (if pk = k then some pv else envGet (envSet rest name v) k)
        = (if k = name then some v else (if pk = k then some pv else envGet rest k))
      by_cases hk : pk = k
      · subst hk
        rw [if_pos rfl, if_neg hpk, if_pos rfl]
      · rw [if_neg hk, ih]
        by_cases hkn : k = name
        · rw [if_pos hkn, if_pos hkn]
        · rw [if_neg hkn, if_neg hkn, if_neg hk]

/-- Evaluating an assign-free tree never touches the environment. -/
theorem visit_noAssign_frame : ∀ (node : Ast) (env : Env), NoAssign node = true →
    (visit env node).2 = env := by
  intro node
  induction node with
  | noneNode => intro env h; rfl
  | num v => intro env h; rfl
  | var name =>
    intro env h
    simp only [visit]
    cases envGet env name <;> rfl
  | binOp l op r ihl ihr =>
    intro env h
    simp only [NoAssign, Bool.and_eq_true] at h
    simp only [visit]
    have h1 := ihl env h.1
    cases hv : visit env l with
    | mk resl env1 =>
      rw [hv] at h1
      simp only [] at h1
      subst h1
      cases resl with
      | error e => rfl
      | ok lv =>
        simp only []
        have h2 := ihr env1 h.2
        cases hv2 : visit env1 r with
        | mk resr env2 =>
          rw [hv2] at h2
          simp only [] at h2
          subst h2
          cases resr with
          | error e => rfl
          | ok rv =>
            simp only []
            by_cases h4 : op = TokType.PLUS
            · rw [if_pos h4]
            rw [if_neg h4]
            by_cases h5 : op = TokType.MINUS
            · rw [if_pos h5]
            rw [if_neg h5]
            by_cases h6 : op = TokType.MUL
            · rw [if_pos h6]
            rw [if_neg h6]
            by_cases h7 : op = TokType.DIV
            · rw [if_pos h7]
            · rw [if_neg h7]
  | assign name value is_decl ih =>
    intro env h
    simp [NoAssign] at h

/-! ### Decomposition lemmas for the grammar -/

theorem spineToksE_append (sp : List (Bool × ATerm)) (p : Bool × ATerm) :
    spineToksE (sp ++ [p]) = spineToksE sp ++ pmTok p.1 :: tokT p.2 := by
  induction sp with
  | nil => simp [spineToksE]
  | cons q sp ih => simp [spineToksE, ih]

theorem spineToksT_append (sp : List (Bool × AFactor)) (p : Bool × AFactor) :
    spineToksT (sp ++ [p]) = spineToksT sp ++ mdTok p.1 :: tokF p.2 := by
  induction sp with
  | nil => simp [spineToksT]
  | cons q sp ih => simp [spineToksT, ih]

theorem tokE_decomp : ∀ e : AExpr, tokE e = tokT (ltermE e) ++ spineToksE (spineE e)
  | .base t => by simp [tokE, ltermE, spineE, spineToksE]
  | .op e b t => by
    rw [tokE, tokE_decomp e, ltermE, spineE, spineToksE_append, List.append_assoc]

theorem tokT_decomp : ∀ t : ATerm, tokT t = tokF (lfacT t) ++ spineToksT (spineT t)
  | .base f => by simp [tokT, lfacT, spineT, spineToksT]
  | .op t b f => by
    rw [tokT, tokT_decomp t, lfacT, spineT, spineToksT_append, List.append_assoc]

theorem astE_decomp : ∀ e : AExpr, astE e = foldSpineE (astT (ltermE e)) (spineE e)
  | .base t => by simp [astE, ltermE, spineE, foldSpineE]
  | .op e b t => by
    rw [astE, astE_decomp e, ltermE, spineE, foldSpineE, foldSpineE, List.foldl_append]
    rfl

theorem astT_decomp : ∀ t : ATerm, astT t = foldSpineT (astF (lfacT t)) (spineT t)
  | .base f => by simp [astT, lfacT, spineT, foldSpineT]
  | .op t b f => by
    rw [astT, astT_decomp t, lfacT, spineT, foldSpineT, foldSpineT, List.foldl_append]
    rfl

theorem spineE_size : ∀ e : AExpr,
    sizeT (ltermE e) < sizeE e ∧ ∀ p ∈ spineE e, sizeT p.2 < sizeE e
  | .base t => by
    refine ⟨by simp [ltermE, sizeE], ?_⟩
    intro p hp
    simp [spineE] at hp
  | .op e b t => by
    have ih := spineE_size e
    refine ⟨?_, ?_⟩
    · have := ih.1
      simp only [ltermE, sizeE]
      omega
    · intro p hp
      simp only [spineE, List.mem_append, List.mem_singleton] at hp
      rcases hp with hp | hp
      · have := ih.2 p hp
        simp only [sizeE]
        omega
      · subst hp
        simp only [sizeE]
        omega

theorem spineT_size : ∀ t : ATerm,
    sizeF (lfacT t) < sizeT t ∧ ∀ p ∈ spineT t, sizeF p.2 < sizeT t
  | .base f => by
    refine ⟨by simp [lfacT, sizeT], ?_⟩
    intro p hp
    simp [spineT] at hp
  | .op t b f => by
    have ih := spineT_size t
    refine ⟨?_, ?_⟩
    · have := ih.1
      simp only [lfacT, sizeT]
      omega
    · intro p hp
      simp only [spineT, List.mem_append, List.mem_singleton] at hp
      rcases hp with hp | hp
      · have := ih.2 p hp
        simp only [sizeT]
        omega
      · subst hp
        simp only [sizeT]
        omega

theorem wfE_parts : ∀ e : AExpr, wfE e = true →
    wfT (ltermE e) = true ∧ ∀ p ∈ spineE e, wfT p.2 = true
  | .base t => by
    intro h
    refine ⟨h, ?_⟩
    intro p hp
    simp [spineE] at hp
  | .op e b t => by
    intro h
    simp only [wfE, Bool.and_eq_true] at h
    have ih := wfE_parts e h.1
    refine ⟨by simpa [ltermE] using ih.1, ?_⟩
    intro p hp
    simp only [spineE, List.mem_append, List.mem_singleton] at hp
    rcases hp with hp | hp
    · exact ih.2 p hp
    · subst hp; exact h.2

theorem wfT_parts : ∀ t : ATerm, wfT t = true →
    wfF (lfacT t) = true ∧ ∀ p ∈ spineT t, wfF p.2 = true
  | .base f => by
    intro h
    refine ⟨h, ?_⟩
    intro p hp
    simp [spineT] at hp
  | .op t b f => by
    intro h
    simp only [wfT, Bool.and_eq_true] at h
    have ih := wfT_parts t h.1
    refine ⟨by simpa [lfacT] using ih.1, ?_⟩
    intro p hp
    simp only [spineT, List.mem_append, List.mem_singleton] at hp
    rcases hp with hp | hp
    · exact ih.2 p hp
    · subst hp; exact h.2

theorem tokF_pos : ∀ f : AFactor, 1 ≤ (tokF f).length
  | .num n => by simp [tokF]
  | .paren e => by simp [tokF]

/-! ### Numeral lemmas -/

theorem digitChar_isDigit : ∀ d : Digit, (digitChar d).isDigit = true := by decide

theorem digitChar_toNat : ∀ d : Digit, (digitChar d).toNat - 48 = d.val := by decide

theorem foldl_digitChar (l : List Digit) : ∀ i : ℕ,
    (l.map digitChar).foldl (fun a c => 10 * a + (c.toNat - 48)) i
      = l.foldl (fun a d => 10 * a + d.val) i := by
  induction l with
  | nil => intro i; rfl
  | cons d l ih =>
    intro i
    simp only [List.map_cons, List.foldl_cons, digitChar_toNat d, ih]

theorem dot_not_digit : ('.' : Char).isDigit = false := by decide

/-- `float()` of a rendered numeral is its decimal value. -/
theorem pyFloat_lexeme (n : Numeral) : pyFloat n.lexeme = n.val := by
  obtain ⟨ip, fp⟩ := n
  match fp with
  | none =>
    have hsplit := takeWhile_append_of_all Char.isDigit (ip.map digitChar) []
      (by intro a ha; simp only [List.mem_map] at ha; obtain ⟨d, _, hd⟩ := ha
          subst hd; exact digitChar_isDigit d)
      (by intro b hb; simp at hb)
    show pyFloat (ip.map digitChar ++ []) = _
    unfold pyFloat
    rw [hsplit.1, hsplit.2]
    simp only [Numeral.val, natOfDigits, foldl_digitChar]
  | some f =>
    have hsplit := takeWhile_append_of_all Char.isDigit (ip.map digitChar)
      ('.' :: f.map digitChar)
      (by intro a ha; simp only [List.mem_map] at ha; obtain ⟨d, _, hd⟩ := ha
          subst hd; exact digitChar_isDigit d)
      (by intro b hb; simp only [List.head?_cons, Option.some_inj] at hb
          subst hb; exact dot_not_digit)
    show pyFloat (ip.map digitChar ++ '.' :: f.map digitChar) = _
    unfold pyFloat
    rw [hsplit.1, hsplit.2]
    simp only [Numeral.val, natOfDigits, foldl_digitChar, List.length_map]

/-! ### Evaluation of the parsed arithmetic AST -/

mutual

theorem evalE : ∀ (e : AExpr) (env : Env) (v : ℚ), wfE e = true → refValE e = some v →
    visit env (astE e) = (.ok (some v), env)
  | .base t, env, v, hw, hr => evalT t env v hw hr
  | .op e b t, env, v, hw, hr => by
    simp only [wfE, Bool.and_eq_true] at hw
    simp only [refValE] at hr
    match he : refValE e, ht : refValT t with
    | none, _ => rw [he] at hr; simp at hr
    | some a, none => rw [he, ht] at hr; simp at hr
    | some a, some c =>
      rw [he, ht] at hr
      simp only [Option.some_inj] at hr
      subst hr
      simp only [astE, visit]
      rw [evalE e env a hw.1 he]
      simp only []
      rw [evalT t env c hw.2 ht]
      simp only []
      cases b
      · simp [pySub]
      · simp [pyAdd]

theorem evalT : ∀ (t : ATerm) (env : Env) (v : ℚ), wfT t = true → refValT t = some v →
    visit env (astT t) = (.ok (some v), env)
  | .base f, env, v, hw, hr => evalF f env v hw hr
  | .op t b f, env, v, hw, hr => by
    simp only [wfT, Bool.and_eq_true] at hw
    simp only [refValT] at hr
    match ht : refValT t, hf : refValF f with
    | none, _ => rw [ht] at hr; simp at hr
    | some a, none => rw [ht, hf] at hr; simp at hr
    | some a, some c =>
      rw [ht, hf] at hr
      simp only [] at hr
      cases b
      · -- division
        rw [if_neg (by simp)] at hr
        by_cases hc : c = 0
        · rw [if_pos hc] at hr; cases hr
        · rw [if_neg hc] at hr
          simp only [Option.some_inj] at hr
          subst hr
          simp only [astT, visit]
          rw [evalT t env a hw.1 ht]
          simp only []
          rw [evalF f env c hw.2 hf]
          simp only []
          simp [pyDiv, hc]
      · -- multiplication
        rw [if_pos rfl] at hr
        simp only [Option.some_inj] at hr
        subst hr
        simp only [astT, visit]
        rw [evalT t env a hw.1 ht]
        simp only []
        rw [evalF f env c hw.2 hf]
        simp only []
        simp [pyMul]

theorem evalF : ∀ (f : AFactor) (env : Env) (v : ℚ), wfF f = true → refValF f = some v →
    visit env (astF f) = (.ok (some v), env)
  | .num n, env, v, hw, hr => by
    simp only [refValF, Option.some_inj] at hr
    subst hr
    simp only [astF, visit, pyFloat_lexeme]
  | .paren e, env, v, hw, hr => by
    simp only [astF]
    exact evalE e env v hw hr

end

/-! ### Lexing a rendered arithmetic line -/

theorem digitChar_not_space : ∀ d : Digit, isSpaceTab (digitChar d) = false := by decide

/-- The NUMBER rule consumes exactly a well-formed numeral's lexeme when
a space follows it. -/
theorem lexNumber_lexeme (i0 : Digit) (ip : List Digit) (fp : Option (List Digit))
    (hfp : fp ≠ some []) (X : List Char) :
    lexNumber (digitChar i0) ((ip.map digitChar ++ fracChars fp) ++ ' ' :: X)
      = (⟨.NUMBER, (Numeral.mk (i0 :: ip) fp).lexeme⟩, ' ' :: X) := by
  have hall : ∀ a ∈ (i0 :: ip).map digitChar, Char.isDigit a = true := by
    intro a ha
    simp only [List.mem_map] at ha
    obtain ⟨d, _, hd⟩ := ha
    subst hd
    exact digitChar_isDigit d
  cases fp with
  | none =>
    have hsplit := takeWhile_append_of_all Char.isDigit ((i0 :: ip).map digitChar)
      (' ' :: X) hall
      (fun b hb => by simp only [List.head?_cons, Option.some_inj] at hb; subst hb; decide)
    simp only [fracChars]
    unfold lexNumber
    have hform : digitChar i0 :: ((ip.map digitChar ++ []) ++ ' ' :: X)
        = (i0 :: ip).map digitChar ++ ' ' :: X := by simp
    rw [hform, hsplit.1, hsplit.2]
    simp [Numeral.lexeme, fracChars]
  | some f =>
    have hf : f ≠ [] := fun hf0 => hfp (by rw [hf0])
    match f, hf with
    | f0 :: f', _ =>
      have hsplit := takeWhile_append_of_all Char.isDigit ((i0 :: ip).map digitChar)
        ('.' :: (f0 :: f').map digitChar ++ ' ' :: X) hall
        (fun b hb => by
          simp only [List.cons_append, List.head?_cons, Option.some_inj] at hb
          subst hb; decide)
      have hsplit2 := takeWhile_append_of_all Char.isDigit ((f0 :: f').map digitChar)
        (' ' :: X)
        (by intro a ha
            simp only [List.mem_map] at ha
            obtain ⟨d, _, hd⟩ := ha
            subst hd
            exact digitChar_isDigit d)
        (fun b hb => by simp only [List.head?_cons, Option.some_inj] at hb; subst hb; decide)
      simp only [fracChars]
      unfold lexNumber
      have hform : digitChar i0 :: ((ip.map digitChar ++ '.' :: (f0 :: f').map digitChar) ++ ' ' :: X)
          = (i0 :: ip).map digitChar ++ ('.' :: (f0 :: f').map digitChar ++ ' ' :: X) := by
        simp
      rw [hform, hsplit.1, hsplit.2]
      have hform2 : ('.' :: (f0 :: f').map digitChar ++ ' ' :: X)
          = '.' :: (digitChar f0 :: (f'.map digitChar ++ ' ' :: X)) := by simp
      rw [hform2]
      simp only [if_pos rfl, digitChar_isDigit f0, if_pos]
      have hform3 : digitChar f0 :: (f'.map digitChar ++ ' ' :: X)
          = (f0 :: f').map digitChar ++ ' ' :: X := by simp
      rw [hform3, hsplit2.1, hsplit2.2]
      simp [Numeral.lexeme, fracChars]

/-- A rendered arithmetic line never begins with a space or tab. -/
theorem renderToks_head_not_space {ts : List Token} (h : ∀ t ∈ ts, GoodTok t) :
    (renderToks ts).dropWhile isSpaceTab = renderToks ts := by
  cases ts with
  | nil => rfl
  | cons t ts =>
    have ht := h t (by simp)
    rcases ht with ⟨nm, hwf, hval⟩ | h1 | h1 | h1 | h1 | h1 | h1
    · obtain ⟨ip, fp⟩ := nm
      have hip : ip ≠ [] := by
        intro h0
        subst h0
        simp [Numeral.wf] at hwf
      match ip, hip, hval with
      | i0 :: ip', _, hval =>
        subst hval
        show ((Numeral.mk (i0 :: ip') fp).lexeme ++ ' ' :: renderToks ts).dropWhile isSpaceTab
          = (Numeral.mk (i0 :: ip') fp).lexeme ++ ' ' :: renderToks ts
        rw [show (Numeral.mk (i0 :: ip') fp).lexeme
            = digitChar i0 :: (ip'.map digitChar ++ fracChars fp) from rfl]
        rw [List.cons_append, List.dropWhile_cons, digitChar_not_space i0]
        simp
    all_goals (subst h1; rfl)

/-- Lexing the rendered line of a sequence of arithmetic tokens gives
back exactly those tokens. -/
theorem lex_renderToks : ∀ ts : List Token, (∀ t ∈ ts, GoodTok t) →
    lex (renderToks ts) = .ok ts := by
  intro ts
  induction ts with
  | nil => intro h; rfl
  | cons t ts ih =>
    intro h
    have ht := h t (by simp)
    have hts : ∀ u ∈ ts, GoodTok u := fun u hu => h u (by simp [hu])
    have hskip : lex (' ' :: renderToks ts) = .ok ts := by
      rw [lex_cons]
      have hstep : lexStep ' ' (renderToks ts)
          = .ok (none, (renderToks ts).dropWhile isSpaceTab) := rfl
      rw [hstep]
      simp only []
      rw [renderToks_head_not_space hts]
      exact ih hts
    rcases ht with ⟨nm, hwf, hval⟩ | h1 | h1 | h1 | h1 | h1 | h1
    · -- NUMBER token
      obtain ⟨ip, fp⟩ := nm
      have hip : ip ≠ [] := by
        intro h0
        subst h0
        simp [Numeral.wf] at hwf
      have hfp : fp ≠ some [] := by
        intro hfp0
        subst hfp0
        simp [Numeral.wf] at hwf
      match ip, hip, hval with
      | i0 :: ip', _, hval =>
        subst hval
        show lex ((Numeral.mk (i0 :: ip') fp).lexeme ++ ' ' :: renderToks ts)
          = .ok (⟨.NUMBER, (Numeral.mk (i0 :: ip') fp).lexeme⟩ :: ts)
        rw [show (Numeral.mk (i0 :: ip') fp).lexeme
            = digitChar i0 :: (ip'.map digitChar ++ fracChars fp) from rfl]
        rw [List.cons_append, lex_cons]
        have hstep : lexStep (digitChar i0) ((ip'.map digitChar ++ fracChars fp)
              ++ ' ' :: renderToks ts)
            = .ok (some ⟨.NUMBER, (Numeral.mk (i0 :: ip') fp).lexeme⟩, ' ' :: renderToks ts) := by
          unfold lexStep
          rw [if_pos (digitChar_isDigit i0), lexNumber_lexeme i0 ip' fp hfp (renderToks ts)]
        rw [hstep]
        simp only []
        rw [hskip]
        rfl
    · subst h1
      show lex ('+' :: ' ' :: renderToks ts) = .ok (plusTok :: ts)
      rw [lex_cons]
      have hstep : lexStep '+' (' ' :: renderToks ts)
          = .ok (some plusTok, ' ' :: renderToks ts) := rfl
      rw [hstep]; simp only []; rw [hskip]
    · subst h1
      show lex ('-' :: ' ' :: renderToks ts) = .ok (minusTok :: ts)
      rw [lex_cons]
      have hstep : lexStep '-' (' ' :: renderToks ts)
          = .ok (some minusTok, ' ' :: renderToks ts) := rfl
      rw [hstep]; simp only []; rw [hskip]
    · subst h1
      show lex ('*' :: ' ' :: renderToks ts) = .ok (mulTok :: ts)
      rw [lex_cons]
      have hstep : lexStep '*' (' ' :: renderToks ts)
          = .ok (some mulTok, ' ' :: renderToks ts) := rfl
      rw [hstep]; simp only []; rw [hskip]
    · subst h1
      show lex ('/' :: ' ' :: renderToks ts) = .ok (divTok :: ts)
      rw [lex_cons]
      have hstep : lexStep '/' (' ' :: renderToks ts)
          = .ok (some divTok, ' ' :: renderToks ts) := rfl
      rw [hstep]; simp only []; rw [hskip]
    · subst h1
      show lex ('(' :: ' ' :: renderToks ts) = .ok (lparenTok :: ts)
      rw [lex_cons]
      have hstep : lexStep '(' (' ' :: renderToks ts)
          = .ok (some lparenTok, ' ' :: renderToks ts) := rfl
      rw [hstep]; simp only []; rw [hskip]
    · subst h1
      show lex (')' :: ' ' :: renderToks ts) = .ok (rparenTok :: ts)
      rw [lex_cons]
      have hstep : lexStep ')' (' ' :: renderToks ts)
          = .ok (some rparenTok, ' ' :: renderToks ts) := rfl
      rw [hstep]; simp only []; rw [hskip]

/-! ### Parsing a rendered arithmetic token sequence -/

theorem pmTok_type (b : Bool) : (pmTok b).type = if b then TokType.PLUS else TokType.MINUS := by
  cases b <;> rfl

theorem mdTok_type (b : Bool) : (mdTok b).type = if b then TokType.MUL else TokType.DIV := by
  cases b <;> rfl

theorem parseFactorF_number (fl : ℕ) (v : List Char) (ts : List Token) :
    parseFactorF (fl + 1) (⟨.NUMBER, v⟩ :: ts) = .ok (.num (pyFloat v), ts) := rfl

theorem parseFactorF_lparen (fl : ℕ) (ts : List Token) :
    parseFactorF (fl + 1) (lparenTok :: ts)
      = (match parseExpressionF fl ts with
        | .error e => .error e
        | .ok (node, ts2) =>
          match consume ts2 (some .RPAREN) with
          | .error e => .error e
          | .ok (_, ts3) => .ok (node, ts3)) := rfl

theorem consume_rparen (ts : List Token) :
    consume (rparenTok :: ts) (some .RPAREN) = .ok (some rparenTok, ts) := rfl

theorem parseTermF_succ (fl : ℕ) (ts : List Token) :
    parseTermF (fl + 1) ts
      = (match parseFactorF fl ts with
        | .error e => .error e
        | .ok (node, ts1) => parseTermLoopF fl node ts1) := rfl

theorem parseExpressionF_succ (fl : ℕ) (ts : List Token) :
    parseExpressionF (fl + 1) ts
      = (match parseTermF fl ts with
        | .error e => .error e
        | .ok (node, ts1) => parseExprLoopF fl node ts1) := rfl

theorem parseTermLoopF_md (fl : ℕ) (node : Ast) (b : Bool) (ts : List Token) :
    parseTermLoopF (fl + 1) node (mdTok b :: ts)
      = (match parseFactorF fl ts with
        | .error e => .error e
        | .ok (rhs, ts2) => parseTermLoopF fl (.binOp node (mdTok b).type rhs) ts2) := by
  cases b <;> rfl

theorem parseExprLoopF_pm (fl : ℕ) (node : Ast) (b : Bool) (ts : List Token) :
    parseExprLoopF (fl + 1) node (pmTok b :: ts)
      = (match parseTermF fl ts with
        | .error e => .error e
        | .ok (rhs, ts2) => parseExprLoopF fl (.binOp node (pmTok b).type rhs) ts2) := by
  cases b <;> rfl

theorem parseTermLoopF_stop (fl : ℕ) (node : Ast) (ts : List Token) (h : StopsTerm ts) :
    parseTermLoopF (fl + 1) node ts = .ok (node, ts) := by
  cases ts with
  | nil => rfl
  | cons t rest =>
    obtain ⟨h1, h2⟩ := h
    show (if (t.type = .MUL || t.type = .DIV) = true then _ else Except.ok (node, t :: rest)) = _
    rw [if_neg (by simp [h1, h2])]

theorem parseExprLoopF_stop (fl : ℕ) (node : Ast) (ts : List Token) (h : StopsExpr ts) :
    parseExprLoopF (fl + 1) node ts = .ok (node, ts) := by
  cases ts with
  | nil => rfl
  | cons t rest =>
    obtain ⟨h1, h2, h3, h4⟩ := h
    show (if (t.type = .PLUS || t.type = .MINUS) = true then _ else Except.ok (node, t :: rest)) = _
    rw [if_neg (by simp [h1, h2])]

theorem stopsExpr_rparen (rest : List Token) : StopsExpr (rparenTok :: rest) :=
  ⟨by decide, by decide, by decide, by decide⟩

theorem stopsTerm_of_stopsExpr {ts : List Token} (h : StopsExpr ts) : StopsTerm ts := by
  cases ts with
  | nil => trivial
  | cons t rest => exact ⟨h.2.2.1, h.2.2.2⟩

theorem stopsTerm_spineE (sp : List (Bool × ATerm)) (rest : List Token)
    (h : StopsExpr rest) : StopsTerm (spineToksE sp ++ rest) := by
  cases sp with
  | nil => exact stopsTerm_of_stopsExpr h
  | cons p sp' =>
    show StopsTerm (pmTok p.1 :: _)
    cases hb : p.1 <;> exact ⟨by simp [pmTok, hb, plusTok, minusTok], by simp [pmTok, hb, plusTok, minusTok]⟩

/-- The recursive-descent parser, run on the tokens of a well-formed
arithmetic expression followed by tokens it must stop at, consumes
exactly those tokens and builds the left-associated AST — provided the
fuel is at least linear in the number of tokens (which the fixed fuel of
`parseStatement` always is). -/
theorem parse_arith : ∀ n : ℕ,
    (∀ fct : AFactor, sizeF fct ≤ n → wfF fct = true →
        ∀ (rest : List Token) (fl : ℕ), 4 * (tokF fct).length + 1 ≤ fl →
        parseFactorF fl (tokF fct ++ rest) = .ok (astF fct, rest))
    ∧ (∀ t : ATerm, sizeT t ≤ n → wfT t = true →
        ∀ (rest : List Token) (fl : ℕ), 4 * (tokT t).length + 3 ≤ fl → StopsTerm rest →
        parseTermF fl (tokT t ++ rest) = .ok (astT t, rest))
    ∧ (∀ e : AExpr, sizeE e ≤ n → wfE e = true →
        ∀ (rest : List Token) (fl : ℕ), 4 * (tokE e).length + 5 ≤ fl → StopsExpr rest →
        parseExpressionF fl (tokE e ++ rest) = .ok (astE e, rest)) := by
  intro n
  induction n using Nat.strong_induction_on with
  | _ n ih =>
  have hF : ∀ fct : AFactor, sizeF fct ≤ n → wfF fct = true →
      ∀ (rest : List Token) (fl : ℕ), 4 * (tokF fct).length + 1 ≤ fl →
      parseFactorF fl (tokF fct ++ rest) = .ok (astF fct, rest) := by
    intro fct hsz hwf rest fl hfl
    match fct with
    | .num nm =>
      match fl, hfl with
      | fl' + 1, _ =>
        show parseFactorF (fl' + 1) (⟨.NUMBER, nm.lexeme⟩ :: rest) = _
        rw [parseFactorF_number]
        rfl
    | .paren e =>
      have hsz2 : sizeE e + 1 ≤ n := by
        have : sizeF (.paren e) = sizeE e + 1 := rfl
        omega
      have hwf2 : wfE e = true := hwf
      have hlen : (tokF (.paren e)).length = (tokE e).length + 2 := by
        simp [tokF]
      match fl, (by omega : 1 ≤ fl) with
      | fl' + 1, _ =>
        show parseFactorF (fl' + 1) ((lparenTok :: (tokE e ++ [rparenTok])) ++ rest) = _
        rw [List.cons_append, parseFactorF_lparen]
        have hE := (ih (n - 1) (by omega)).2.2 e (by omega) hwf2 (rparenTok :: rest) fl'
          (by omega) (stopsExpr_rparen rest)
        rw [show (tokE e ++ [rparenTok]) ++ rest = tokE e ++ rparenTok :: rest by simp]
        rw [hE]
        simp only []
        rw [consume_rparen]
        rfl
  have hTL : ∀ sp : List (Bool × AFactor), (∀ p ∈ sp, sizeF p.2 ≤ n ∧ wfF p.2 = true) →
      ∀ (node : Ast) (rest : List Token) (fl : ℕ), 4 * (spineToksT sp).length + 1 ≤ fl →
      StopsTerm rest →
      parseTermLoopF fl node (spineToksT sp ++ rest) = .ok (foldSpineT node sp, rest) := by
    intro sp
    induction sp with
    | nil =>
      intro hsp node rest fl hfl hstop
      match fl, hfl with
      | fl' + 1, _ =>
        show parseTermLoopF (fl' + 1) node rest = _
        rw [parseTermLoopF_stop fl' node rest hstop]
        rfl
    | cons p sp' ihsp =>
      intro hsp node rest fl hfl hstop
      have hp := hsp p (by simp)
      have hlen : (spineToksT (p :: sp')).length
          = 1 + (tokF p.2).length + (spineToksT sp').length := by
        simp [spineToksT]
        omega
      match fl, (by omega : 1 ≤ fl) with
      | fl' + 1, _ =>
        show parseTermLoopF (fl' + 1) node ((mdTok p.1 :: (tokF p.2 ++ spineToksT sp')) ++ rest) = _
        rw [List.cons_append, List.append_assoc, parseTermLoopF_md]
        rw [hF p.2 hp.1 hp.2 (spineToksT sp' ++ rest) fl' (by omega)]
        simp only []
        rw [ihsp (fun q hq => hsp q (by simp [hq])) (.binOp node (mdTok p.1).type (astF p.2))
          rest fl' (by omega) hstop]
        rw [mdTok_type]
        rfl
  have hT : ∀ t : ATerm, sizeT t ≤ n → wfT t = true →
      ∀ (rest : List Token) (fl : ℕ), 4 * (tokT t).length + 3 ≤ fl → StopsTerm rest →
      parseTermF fl (tokT t ++ rest) = .ok (astT t, rest) := by
    intro t hsz hwf rest fl hfl hstop
    have hsizes := spineT_size t
    have hwfs := wfT_parts t hwf
    have hlen := congrArg List.length (tokT_decomp t)
    rw [List.length_append] at hlen
    have hfpos := tokF_pos (lfacT t)
    match fl, (by omega : 1 ≤ fl) with
    | fl' + 1, _ =>
      rw [tokT_decomp t, List.append_assoc, parseTermF_succ]
      rw [hF (lfacT t) (by omega) hwfs.1 (spineToksT (spineT t) ++ rest) fl' (by omega)]
      simp only []
      rw [hTL (spineT t)
        (fun q hq => ⟨by have := hsizes.2 q hq; omega, hwfs.2 q hq⟩)
        (astF (lfacT t)) rest fl' (by omega) hstop]
      rw [← astT_decomp t]
  have hEL : ∀ sp : List (Bool × ATerm), (∀ p ∈ sp, sizeT p.2 ≤ n ∧ wfT p.2 = true) →
      ∀ (node : Ast) (rest : List Token) (fl : ℕ), 4 * (spineToksE sp).length + 1 ≤ fl →
      StopsExpr rest →
      parseExprLoopF fl node (spineToksE sp ++ rest) = .ok (foldSpineE node sp, rest) := by
    intro sp
    induction sp with
    | nil =>
      intro hsp node rest fl hfl hstop
      match fl, hfl with
      | fl' + 1, _ =>
        show parseExprLoopF (fl' + 1) node rest = _
        rw [parseExprLoopF_stop fl' node rest hstop]
        rfl
    | cons p sp' ihsp =>
      intro hsp node rest fl hfl hstop
      have hp := hsp p (by simp)
      have hlen : (spineToksE (p :: sp')).length
          = 1 + (tokT p.2).length + (spineToksE sp').length := by
        simp [spineToksE]
        omega
      match fl, (by omega : 1 ≤ fl) with
      | fl' + 1, _ =>
        show parseExprLoopF (fl' + 1) node ((pmTok p.1 :: (tokT p.2 ++ spineToksE sp')) ++ rest) = _
        rw [List.cons_append, List.append_assoc, parseExprLoopF_pm]
        rw [hT p.2 hp.1 hp.2 (spineToksE sp' ++ rest) fl' (by omega)
          (stopsTerm_spineE sp' rest hstop)]
        simp only []
        rw [ihsp (fun q hq => hsp q (by simp [hq])) (.binOp node (pmTok p.1).type (astT p.2))
          rest fl' (by omega) hstop]
        rw [pmTok_type]
        rfl
  have hE : ∀ e : AExpr, sizeE e ≤ n → wfE e = true →
      ∀ (rest : List Token) (fl : ℕ), 4 * (tokE e).length + 5 ≤ fl → StopsExpr rest →
      parseExpressionF fl (tokE e ++ rest) = .ok (astE e, rest) := by
    intro e hsz hwf rest fl hfl hstop
    have hsizes := spineE_size e
    have hwfs := wfE_parts e hwf
    have hlen := congrArg List.length (tokE_decomp e)
    rw [List.length_append] at hlen
    have hfpos := tokF_pos (lfacT (ltermE e))
    have hlen2 := congrArg List.length (tokT_decomp (ltermE e))
    rw [List.length_append] at hlen2
    match fl, (by omega : 1 ≤ fl) with
    | fl' + 1, _ =>
      rw [tokE_decomp e, List.append_assoc, parseExpressionF_succ]
      rw [hT (ltermE e) (by omega) hwfs.1 (spineToksE (spineE e) ++ rest) fl' (by omega)
        (stopsTerm_spineE (spineE e) rest hstop)]
      simp only []
      rw [hEL (spineE e)
        (fun q hq => ⟨by have := hsizes.2 q hq; omega, hwfs.2 q hq⟩)
        (astT (ltermE e)) rest fl' (by omega) hstop]
      rw [← astE_decomp e]
  exact ⟨hF, hT, hE⟩

/-! ### Illegal characters make the lexer fail -/

theorem goodChar_digit {x : Char} (h : x.isDigit = true) : goodChar x = true := by
  simp [goodChar, h]

/-- At a position whose character belongs to no lexical class, the
ordered alternation falls through to ERROR and the lexer raises with
that character. -/
theorem lexStep_bad {a : Char} (cs : List Char) (hbad : goodChar a = false)
    (hq : a ≠ '"') : lexStep a cs = .error (.illegalChar a) := by
  simp only [goodChar, Bool.or_eq_false_iff, decide_eq_false_iff_not] at hbad
  obtain ⟨⟨⟨⟨⟨⟨⟨⟨⟨⟨⟨⟨⟨⟨h1, h2⟩, h3⟩, h4⟩, h5⟩, h6⟩, h7⟩, h8⟩, h9⟩, h10⟩, h11⟩, h12⟩, h13⟩, h14⟩, h15⟩ := hbad
  unfold lexStep
  rw [if_neg (by simp [h1]), if_neg hq, if_neg h5, if_neg h6, if_neg h7, if_neg h8,
    if_neg h9, if_neg h10, if_neg h11, if_neg h12,
    if_neg (by simp [h2, h3]), if_neg h15, if_neg (by simp [isSpaceTab, h13, h14])]

/-- A character no class can contain survives the NUMBER rule. -/
theorem lexNumber_mem {a : Char} {cs : List Char} {x : Char}
    (hx : x ∈ a :: cs) (hbad : goodChar x = false) : x ∈ (lexNumber a cs).2 := by
  have hsplit := List.takeWhile_append_dropWhile (p := Char.isDigit) (l := a :: cs)
  unfold lexNumber
  match hdw : (a :: cs).dropWhile Char.isDigit with
  | [] =>
    exfalso
    rw [hdw, List.append_nil] at hsplit
    have hx2 : x ∈ (a :: cs).takeWhile Char.isDigit := by rw [hsplit]; exact hx
    rw [goodChar_digit (List.mem_takeWhile_imp hx2)] at hbad
    cases hbad
  | p :: r2 =>
    simp only []
    rw [hdw] at hsplit
    have hx2 : x ∈ (a :: cs).takeWhile Char.isDigit ∨ x ∈ p :: r2 := by
      rw [← List.mem_append, hsplit]
      exact hx
    rcases hx2 with hx2 | hx2
    · exfalso
      rw [goodChar_digit (List.mem_takeWhile_imp hx2)] at hbad
      cases hbad
    · by_cases hp : p = '.'
      · cases r2 with
        | nil => simp only []; rw [if_pos hp]; exact hx2
        | cons d r3 =>
          simp only []
          rw [if_pos hp]
          by_cases hd : d.isDigit = true
          · rw [if_pos hd]
            simp only []
            have hsplit2 := List.takeWhile_append_dropWhile (p := Char.isDigit) (l := d :: r3)
            rcases List.mem_cons.mp hx2 with hx2 | hx2
            · exfalso
              rw [hx2, hp, show goodChar '.' = true from rfl] at hbad
              cases hbad
            · have hx3 : x ∈ (d :: r3).takeWhile Char.isDigit ∨ x ∈ (d :: r3).dropWhile Char.isDigit := by
                rw [← List.mem_append, hsplit2]
                exact hx2
              rcases hx3 with hx3 | hx3
              · exfalso
                rw [goodChar_digit (List.mem_takeWhile_imp hx3)] at hbad
                cases hbad
              · exact hx3
          · rw [if_neg hd]
            exact hx2
      · cases r2 with
        | nil => simp only []; rw [if_neg hp]; exact hx2
        | cons d r3 => simp only []; rw [if_neg hp]; exact hx2

theorem goodChar_of_ident {x : Char} (h : isIdentChar x = true) : goodChar x = true := by
  simp only [isIdentChar, Bool.or_eq_true] at h
  rcases h with (h | h) | h <;> simp [goodChar, h]

theorem goodChar_of_spaceTab {x : Char} (h : isSpaceTab x = true) : goodChar x = true := by
  simp only [isSpaceTab, Bool.or_eq_true, decide_eq_true_eq] at h
  rcases h with h | h <;> simp [goodChar, h]

/-- A character no class can contain survives the NUMBER rule's
consumption: it is still in the rest. -/
theorem lexNumber_rest_mem {a : Char} {cs : List Char} {x : Char}
    (hx : x ∈ (lexNumber a cs).2) : x ∈ a :: cs := by
  have hsub : ((a :: cs).dropWhile Char.isDigit).Sublist (a :: cs) := List.dropWhile_sublist _
  unfold lexNumber at hx
  match hdw : (a :: cs).dropWhile Char.isDigit with
  | [] =>
    rw [hdw] at hx
    simp at hx
  | p :: r2 =>
    rw [hdw] at hsub hx
    simp only [] at hx
    by_cases hp : p = '.'
    · cases r2 with
      | nil =>
        simp only [] at hx
        rw [if_pos hp] at hx
        simp only [] at hx
        exact List.Sublist.mem hx hsub
      | cons d r3 =>
        simp only [] at hx
        rw [if_pos hp] at hx
        by_cases hd : d.isDigit = true
        · rw [if_pos hd] at hx
          simp only [] at hx
          have hx2 : x ∈ d :: r3 := List.Sublist.mem hx (List.dropWhile_sublist _)
          exact List.Sublist.mem (List.mem_cons_of_mem p hx2) hsub
        · rw [if_neg hd] at hx
          exact List.Sublist.mem hx hsub
    · cases r2 with
      | nil =>
        simp only [] at hx
        rw [if_neg hp] at hx
        exact List.Sublist.mem hx hsub
      | cons d r3 =>
        simp only [] at hx
        rw [if_neg hp] at hx
        exact List.Sublist.mem hx hsub

/-- Characters cut by `lexAssign` on success. -/
theorem lexAssign_rest {cs : List Char} {t : Token} {r : List Char}
    (h : lexAssign cs = .ok (t, r)) : cs = '=' :: r := by
  unfold lexAssign at h
  cases cs with
  | nil => cases h
  | cons e r' =>
    simp only [] at h
    by_cases he : e = '='
    · rw [if_pos he] at h
      cases h
      rw [he]
    · rw [if_neg he] at h
      cases h

/-- The STRING rule's only failure is the unterminated quote. -/
theorem lexString_error {cs : List Char} {e : Err}
    (h : lexString cs = .error e) : e = .illegalChar '"' := by
  unfold lexString at h
  match hdw : cs.dropWhile (fun x => ¬ x = '"') with
  | [] => rw [hdw] at h; cases h; rfl
  | q :: r =>
    rw [hdw] at h
    simp only [] at h
    by_cases hq : q = '"'
    · rw [if_pos hq] at h; cases h
    · rw [if_neg hq] at h; cases h; rfl

/-- The ASSIGN rule's only failure is the lone colon. -/
theorem lexAssign_error {cs : List Char} {e : Err}
    (h : lexAssign cs = .error e) : e = .illegalChar ':' := by
  unfold lexAssign at h
  cases cs with
  | nil => cases h; rfl
  | cons e2 r =>
    simp only [] at h
    by_cases he : e2 = '='
    · rw [if_pos he] at h; cases h
    · rw [if_neg he] at h; cases h; rfl

/-- Every error the lexer's step can raise carries the offending
character. -/
theorem lexStep_error_illegal {a : Char} {cs : List Char} {e : Err}
    (h : lexStep a cs = .error e) : ∃ c', e = .illegalChar c' := by
  unfold lexStep at h
  by_cases h1 : a.isDigit = true
  · rw [if_pos h1] at h; cases h
  rw [if_neg h1] at h
  by_cases h2 : a = '"'
  · rw [if_pos h2] at h
    match hs : lexString cs with
    | .error e2 => rw [hs] at h; simp only [] at h; cases h; exact ⟨'"', lexString_error hs⟩
    | .ok (t2, r2) => rw [hs] at h; simp only [] at h; cases h
  rw [if_neg h2] at h
  by_cases h3 : a = ':'
  · rw [if_pos h3] at h
    match hs : lexAssign cs with
    | .error e2 => rw [hs] at h; simp only [] at h; cases h; exact ⟨':', lexAssign_error hs⟩
    | .ok (t2, r2) => rw [hs] at h; simp only [] at h; cases h
  rw [if_neg h3] at h
  by_cases h4 : a = '='
  · rw [if_pos h4] at h; cases h
  rw [if_neg h4] at h
  by_cases h5 : a = '+'
  · rw [if_pos h5] at h; cases h
  rw [if_neg h5] at h
  by_cases h6 : a = '-'
  · rw [if_pos h6] at h; cases h
  rw [if_neg h6] at h
  by_cases h7 : a = '*'
  · rw [if_pos h7] at h; cases h
  rw [if_neg h7] at h
  by_cases h8 : a = '/'
  · rw [if_pos h8] at h; cases h
  rw [if_neg h8] at h
  by_cases h9 : a = '('
  · rw [if_pos h9] at h; cases h
  rw [if_neg h9] at h
  by_cases h10 : a = ')'
  · rw [if_pos h10] at h; cases h
  rw [if_neg h10] at h
  by_cases h11 : (a.isAlpha || a = '_') = true
  · rw [if_pos h11] at h; cases h
  rw [if_neg h11] at h
  by_cases h12 : a = '\n'
  · rw [if_pos h12] at h; cases h
  rw [if_neg h12] at h
  by_cases h13 : isSpaceTab a = true
  · rw [if_pos h13] at h; cases h
  rw [if_neg h13] at h
  cases h
  exact ⟨a, rfl⟩

/-- On a successful step at a non-quote character: the rest is part of
the input, and any character of the input that belongs to no class is
still in the rest (only class characters get consumed). -/
theorem lexStep_ok_anatomy {a : Char} {cs : List Char} {t? : Option Token} {rest : List Char}
    (ha : a ≠ '"') (h : lexStep a cs = .ok (t?, rest)) :
    (∀ x ∈ rest, x ∈ a :: cs) ∧ (∀ x ∈ a :: cs, goodChar x = false → x ∈ rest) := by
  unfold lexStep at h
  by_cases h1 : a.isDigit = true
  · rw [if_pos h1] at h
    cases h
    exact ⟨fun x hx => lexNumber_rest_mem hx, fun x hx hbad => lexNumber_mem hx hbad⟩
  rw [if_neg h1] at h
  rw [if_neg ha] at h
  by_cases h3 : a = ':'
  · rw [if_pos h3] at h
    match hs : lexAssign cs with
    | .error e2 => rw [hs] at h; simp only [] at h; cases h
    | .ok (t2, r2) =>
      rw [hs] at h
      simp only [] at h
      cases h
      have hcs := lexAssign_rest hs
      subst hcs
      constructor
      · intro x hx
        exact List.mem_cons_of_mem a (List.mem_cons_of_mem '=' hx)
      · intro x hx hbad
        rcases List.mem_cons.mp hx with hx | hx
        · rw [hx, h3, show goodChar ':' = true from rfl] at hbad; cases hbad
        rcases List.mem_cons.mp hx with hx | hx
        · rw [hx, show goodChar '=' = true from rfl] at hbad; cases hbad
        · exact hx
  rw [if_neg h3] at h
  by_cases h4 : a = '='
  · rw [if_pos h4] at h
    cases h
    refine ⟨fun x hx => List.mem_cons_of_mem a hx, fun x hx hbad => ?_⟩
    rcases List.mem_cons.mp hx with hx | hx
    · rw [hx, h4, show goodChar '=' = true from rfl] at hbad; cases hbad
    · exact hx
  rw [if_neg h4] at h
  by_cases h5 : a = '+'
  · rw [if_pos h5] at h
    cases h
    refine ⟨fun x hx => List.mem_cons_of_mem a hx, fun x hx hbad => ?_⟩
    rcases List.mem_cons.mp hx with hx | hx
    · rw [hx, h5, show goodChar '+' = true from rfl] at hbad; cases hbad
    · exact hx
  rw [if_neg h5] at h
  by_cases h6 : a = '-'
  · rw [if_pos h6] at h
    cases h
    refine ⟨fun x hx => List.mem_cons_of_mem a hx, fun x hx hbad => ?_⟩
    rcases List.mem_cons.mp hx with hx | hx
    · rw [hx, h6, show goodChar '-' = true from rfl] at hbad; cases hbad
    · exact hx
  rw [if_neg h6] at h
  by_cases h7 : a = '*'
  · rw [if_pos h7] at h
    cases h
    refine ⟨fun x hx => List.mem_cons_of_mem a hx, fun x hx hbad => ?_⟩
    rcases List.mem_cons.mp hx with hx | hx
    · rw [hx, h7, show goodChar '*' = true from rfl] at hbad; cases hbad
    · exact hx
  rw [if_neg h7] at h
  by_cases h8 : a = '/'
  · rw [if_pos h8] at h
    cases h
    refine ⟨fun x hx => List.mem_cons_of_mem a hx, fun x hx hbad => ?_⟩
    rcases List.mem_cons.mp hx with hx | hx
    · rw [hx, h8, show goodChar '/' = true from rfl] at hbad; cases hbad
    · exact hx
  rw [if_neg h8] at h
  by_cases h9 : a = '('
  · rw [if_pos h9] at h
    cases h
    refine ⟨fun x hx => List.mem_cons_of_mem a hx, fun x hx hbad => ?_⟩
    rcases List.mem_cons.mp hx with hx | hx
    · rw [hx, h9, show goodChar '(' = true from rfl] at hbad; cases hbad
    · exact hx
  rw [if_neg h9] at h
  by_cases h10 : a = ')'
  · rw [if_pos h10] at h
    cases h
    refine ⟨fun x hx => List.mem_cons_of_mem a hx, fun x hx hbad => ?_⟩
    rcases List.mem_cons.mp hx with hx | hx
    · rw [hx, h10, show goodChar ')' = true from rfl] at hbad; cases hbad
    · exact hx
  rw [if_neg h10] at h
  by_cases h11 : (a.isAlpha || a = '_') = true
  · rw [if_pos h11] at h
    cases h
    constructor
    · intro x hx
      exact List.mem_cons_of_mem a (List.Sublist.mem hx (List.dropWhile_sublist _))
    · intro x hx hbad
      rcases List.mem_cons.mp hx with hx | hx
      · exfalso
        rw [hx] at hbad
        simp only [Bool.or_eq_true, decide_eq_true_eq] at h11
        rcases h11 with h11 | h11
        · rw [show goodChar a = true by simp [goodChar, h11]] at hbad; cases hbad
        · rw [h11, show goodChar '_' = true from rfl] at hbad; cases hbad
      · have hsplit := List.takeWhile_append_dropWhile (p := isIdentChar) (l := cs)
        have hx2 : x ∈ cs.takeWhile isIdentChar ∨ x ∈ cs.dropWhile isIdentChar := by
          rw [← List.mem_append, hsplit]
          exact hx
        rcases hx2 with hx2 | hx2
        · exfalso
          rw [goodChar_of_ident (List.mem_takeWhile_imp hx2)] at hbad
          cases hbad
        · exact hx2
  rw [if_neg h11] at h
  by_cases h12 : a = '\n'
  · rw [if_pos h12] at h
    cases h
    refine ⟨fun x hx => List.mem_cons_of_mem a hx, fun x hx hbad => ?_⟩
    rcases List.mem_cons.mp hx with hx | hx
    · rw [hx, h12, show goodChar '\n' = true from rfl] at hbad; cases hbad
    · exact hx
  rw [if_neg h12] at h
  by_cases h13 : isSpaceTab a = true
  · rw [if_pos h13] at h
    cases h
    constructor
    · intro x hx
      exact List.mem_cons_of_mem a (List.Sublist.mem hx (List.dropWhile_sublist _))
    · intro x hx hbad
      rcases List.mem_cons.mp hx with hx | hx
      · exfalso
        rw [hx, goodChar_of_spaceTab h13] at hbad
        cases hbad
      · have hsplit := List.takeWhile_append_dropWhile (p := isSpaceTab) (l := cs)
        have hx2 : x ∈ cs.takeWhile isSpaceTab ∨ x ∈ cs.dropWhile isSpaceTab := by
          rw [← List.mem_append, hsplit]
          exact hx
        rcases hx2 with hx2 | hx2
        · exfalso
          rw [goodChar_of_spaceTab (List.mem_takeWhile_imp hx2)] at hbad
          cases hbad
        · exact hx2
  rw [if_neg h13] at h
  cases h

/-- One-step unfolding of the lexer loop. -/
theorem lexGo_cons (fuel : ℕ) (a : Char) (cs : List Char) :
    lexGo (fuel + 1) (a :: cs) = (match lexStep a cs with
      | .error e => .error e
      | .ok (none, rest) => lexGo fuel rest
      | .ok (some t, rest) =>
        match lexGo fuel rest with
        | .error e => .error e
        | .ok ts => .ok (t :: ts)) := rfl

/-- A quote-free input containing a character of no lexical class makes
the lexer raise an illegal-character error. -/
theorem lexGo_bad : ∀ (fuel : ℕ) (cs : List Char), cs.length < fuel → '"' ∉ cs →
    ∀ c ∈ cs, goodChar c = false → ∃ c', lexGo fuel cs = .error (.illegalChar c') := by
  intro fuel
  induction fuel with
  | zero => intro cs h; omega
  | succ fuel ih =>
    intro cs hlen hq c hc hbad
    cases cs with
    | nil => simp at hc
    | cons a cs' =>
      have ha : a ≠ '"' := fun h0 => hq (by rw [h0]; simp)
      rw [lexGo_cons]
      match hstep : lexStep a cs' with
      | .error e =>
        obtain ⟨c', he⟩ := lexStep_error_illegal hstep
        subst he
        exact ⟨c', rfl⟩
      | .ok (t?, rest) =>
        have hana := lexStep_ok_anatomy ha hstep
        have hr := lexStep_length hstep
        have hq2 : '"' ∉ rest := fun hin => hq (hana.1 _ hin)
        rcases List.mem_cons.mp hc with hc' | hc'
        · exfalso
          rw [hc'] at hbad
          rw [lexStep_bad cs' hbad ha] at hstep
          cases hstep
        · have hcrest : c ∈ rest := hana.2 c (List.mem_cons_of_mem a hc') hbad
          simp only [List.length_cons] at hlen
          obtain ⟨c', hgo⟩ := ih rest (by omega) hq2 c hcrest hbad
          cases t? with
          | none => exact ⟨c', hgo⟩
          | some t => exact ⟨c', by simp only []; rw [hgo]⟩

/-- Quote-free input with a class-less character: `lex` fails with an
illegal-character error. -/
theorem lex_bad_char {cs : List Char} (hq : '"' ∉ cs) {c : Char} (hc : c ∈ cs)
    (hbad : goodChar c = false) : ∃ c', lex cs = .error (.illegalChar c') :=
  lexGo_bad (cs.length + 1) cs (by omega) hq c hc hbad

mutual

/-- Every token of an arithmetic factor is an arithmetic token. -/
theorem tokF_good : ∀ f : AFactor, wfF f = true → ∀ t ∈ tokF f, GoodTok t
  | .num n, hwf, t, ht => by
    simp only [tokF, List.mem_singleton] at ht
    exact Or.inl ⟨n, hwf, ht⟩
  | .paren e, hwf, t, ht => by
    simp only [tokF, List.mem_cons, List.mem_append, List.mem_singleton,
      List.not_mem_nil, or_false] at ht
    rcases ht with ht | ht | ht
    · exact Or.inr (Or.inr (Or.inr (Or.inr (Or.inr (Or.inl ht)))))
    · exact tokE_good e hwf t ht
    · exact Or.inr (Or.inr (Or.inr (Or.inr (Or.inr (Or.inr ht)))))

theorem tokT_good : ∀ tm : ATerm, wfT tm = true → ∀ t ∈ tokT tm, GoodTok t
  | .base f, hwf, t, ht => tokF_good f hwf t ht
  | .op tm b f, hwf, t, ht => by
    simp only [wfT, Bool.and_eq_true] at hwf
    simp only [tokT, List.mem_append, List.mem_cons] at ht
    rcases ht with ht | ht | ht
    · exact tokT_good tm hwf.1 t ht
    · cases b
      · exact Or.inr (Or.inr (Or.inr (Or.inr (Or.inl ht))))
      · exact Or.inr (Or.inr (Or.inr (Or.inl ht)))
    · exact tokF_good f hwf.2 t ht

theorem tokE_good : ∀ e : AExpr, wfE e = true → ∀ t ∈ tokE e, GoodTok t
  | .base tm, hwf, t, ht => tokT_good tm hwf t ht
  | .op e b tm, hwf, t, ht => by
    simp only [wfE, Bool.and_eq_true] at hwf
    simp only [tokE, List.mem_append, List.mem_cons] at ht
    rcases ht with ht | ht | ht
    · exact tokE_good e hwf.1 t ht
    · cases b
      · exact Or.inr (Or.inr (Or.inl ht))
      · exact Or.inr (Or.inl ht)
    · exact tokT_good tm hwf.2 t ht

end

/-- The first token of a factor is NUMBER or LPAREN. -/
theorem tokF_head : ∀ f : AFactor, ∃ t0 ts', tokF f = t0 :: ts'
    ∧ (t0.type = .NUMBER ∨ t0.type = .LPAREN)
  | .num n => ⟨⟨.NUMBER, n.lexeme⟩, [], rfl, Or.inl rfl⟩
  | .paren e => ⟨lparenTok, tokE e ++ [rparenTok], rfl, Or.inr rfl⟩

/-- The first token of a term is NUMBER or LPAREN. -/
theorem tokT_head (tm : ATerm) : ∃ t0 ts', tokT tm = t0 :: ts'
    ∧ (t0.type = .NUMBER ∨ t0.type = .LPAREN) := by
  obtain ⟨t0, ts', hf, hty⟩ := tokF_head (lfacT tm)
  exact ⟨t0, ts' ++ spineToksT (spineT tm),
    by rw [tokT_decomp tm, hf, List.cons_append], hty⟩

/-- The first token of an expression is NUMBER or LPAREN. -/
theorem tokE_head (e : AExpr) : ∃ t0 ts', tokE e = t0 :: ts'
    ∧ (t0.type = .NUMBER ∨ t0.type = .LPAREN) := by
  obtain ⟨t0, ts', ht, hty⟩ := tokT_head (ltermE e)
  exact ⟨t0, ts' ++ spineToksE (spineE e),
    by rw [tokE_decomp e, ht, List.cons_append], hty⟩

/-- A statement that does not start with IDENT is parsed as an
expression from the start. -/
theorem parseStatementF_not_ident {fl : ℕ} {t0 : Token} {ts0 : List Token}
    (h : t0.type ≠ .IDENT) :
    parseStatementF fl (t0 :: ts0) = parseExpressionF fl (t0 :: ts0) := by
  unfold parseStatementF
  simp only []
  rw [if_neg h]

/-! ### The claims -/

/-- C1: the spec says a statement-initial IDENT whose next token is
neither `:=` nor `=` must be re-interpreted as the start of an ordinary
expression, neither consumed twice nor lost, so that after `x := 5` and
`x = x + 1` the line `x` evaluates to `6.0`.  The code consumes the
IDENT and falls through to `parse_expression` at the position *after*
it: the IDENT is lost, and the line `x` dies with an `AttributeError`
instead of returning `6.0`. -/
theorem claim_c1_ident_fallthrough :
    (∀ (fl : ℕ) (name : List Char) (t2 : Token) (ts : List Token),
      t2.type ≠ .ASSIGN → t2.type ≠ .EQUALS →
      parseStatementF fl (⟨.IDENT, name⟩ :: t2 :: ts) = parseExpressionF fl (t2 :: ts))
    ∧ runLine ("x := 5".toList) [] = (.ok (some 5), [("x".toList, some 5)])
    ∧ runLine ("x = x + 1".toList) [("x".toList, some 5)]
        = (.ok (some 6), [("x".toList, some 6)])
    ∧ runLine ("x".toList) [("x".toList, some 6)]
        = (.error .noneTypeAttr, [("x".toList, some 6)]) := by
  refine ⟨?_, rfl, ?_, rfl⟩
  · intro fl name t2 ts h1 h2
    unfold parseStatementF
    simp only []
    rw [if_pos trivial]
    rw [if_neg h1, if_neg h2]
  · show ((Except.ok (some ((5 : ℚ) + 1)) : Except Err PyVal),
      ([("x".toList, some ((5 : ℚ) + 1))] : Env))
      = (.ok (some 6), [("x".toList, some 6)])
    norm_num

/-- C2: on every variable-free arithmetic line (number literals, the
four operators and parentheses), the full pipeline — tokenize, parse,
evaluate — returns the mathematically correct value under standard
precedence and left-associativity, whenever that value exists (no
division by zero); in particular `2 + 3 * 4` gives `14.0` and
`(2 + 3) * 4` gives `20.0`.  Numbers are modelled as exact rationals. -/
theorem claim_c2_arith_correct :
    (∀ (e : AExpr) (v : ℚ) (env : Env), wfE e = true → refValE e = some v →
      runLine (renderE e) env = (.ok (some v), env))
    ∧ runLine ("2 + 3 * 4".toList) [] = (.ok (some 14), [])
    ∧ runLine ("(2 + 3) * 4".toList) [] = (.ok (some 20), []) := by
  refine ⟨?_, ?_, ?_⟩
  · intro e v env hwf href
    have hgood := tokE_good e hwf
    obtain ⟨t0, ts0, htok, htype⟩ := tokE_head e
    unfold runLine renderE
    rw [lex_renderToks (tokE e) hgood]
    simp only []
    have hparse : parseStatement (tokE e) = .ok (astE e, []) := by
      unfold parseStatement
      rw [htok, parseStatementF_not_ident (by rcases htype with h | h <;> simp [h]), ← htok]
      have hE := (parse_arith (sizeE e)).2.2 e (le_refl _) hwf []
        (4 * (tokE e).length + 8) (by omega) (show StopsExpr [] from trivial)
      rw [List.append_nil] at hE
      exact hE
    rw [hparse]
    simp only []
    exact evalE e env v hwf href
  · show ((Except.ok (some ((2 : ℚ) + 3 * 4)) : Except Err PyVal), ([] : Env))
      = (.ok (some 14), [])
    norm_num
  · show ((Except.ok (some (((2 : ℚ) + 3) * 4)) : Except Err PyVal), ([] : Env))
      = (.ok (some 20), [])
    norm_num

/-- C3: evaluating a `Declaration` (`Assign` with `is_decl = true`)
whose evaluated value is `val`: if the name is already bound the
evaluation fails with the already-declared error and the environment is
unchanged; if the name is absent it binds the name to `val` and returns
`val`.  In particular `x := 5` then `x := 6` fails on the second line
and keeps `x = 5`. -/
theorem claim_c3_declaration :
    (∀ (env : Env) (name : List Char) (value : Ast) (val : PyVal),
      visit env value = (.ok val, env) →
      ((envGet env name).isSome = true →
        visit env (.assign name value true) = (.error (.alreadyDeclared name), env))
      ∧ (envGet env name = none →
        visit env (.assign name value true) = (.ok val, envSet env name val)))
    ∧ runLine ("x := 5".toList) [] = (.ok (some 5), [("x".toList, some 5)])
    ∧ runLine ("x := 6".toList) [("x".toList, some 5)]
        = (.error (.alreadyDeclared "x".toList), [("x".toList, some 5)]) := by
  refine ⟨?_, rfl, rfl⟩
  intro env name value val hval
  constructor
  · intro hpresent
    simp only [visit]
    rw [hval]
    simp only []
    rw [if_pos (by simp [hpresent])]
  · intro habsent
    simp only [visit]
    rw [hval]
    simp only []
    rw [if_neg (by simp [habsent])]

/-- Witness for C3 at concrete inputs. -/
theorem claim_c3_witness :
    visit [("x".toList, some 5)] (.assign ("x".toList) (.num 6) true)
      = (.error (.alreadyDeclared "x".toList), [("x".toList, some 5)])
    ∧ visit [] (.assign ("x".toList) (.num 5) true)
      = (.ok (some 5), [("x".toList, some 5)]) :=
  ⟨(claim_c3_declaration.1 [("x".toList, some 5)] ("x".toList) (.num 6) (some 6) rfl).1 rfl,
   (claim_c3_declaration.1 [] ("x".toList) (.num 5) (some 5) rfl).2 rfl⟩

/-- C4: evaluating a `Reassignment` (`Assign` with `is_decl = false`)
never fails on account of the name: once the value evaluates to `val`,
the name is bound to `val` unconditionally (created if absent) and `val`
is returned; `z = 10` with no prior declaration returns `10.0`. -/
theorem claim_c4_reassignment :
    (∀ (env env1 : Env) (name : List Char) (value : Ast) (val : PyVal),
      visit env value = (.ok val, env1) →
      visit env (.assign name value false) = (.ok val, envSet env1 name val))
    ∧ runLine ("z = 10".toList) [] = (.ok (some 10), [("z".toList, some 10)]) := by
  refine ⟨?_, rfl⟩
  intro env env1 name value val hval
  simp only [visit]
  rw [hval]
  simp only []
  rw [if_neg (by simp)]

/-- Witness for C4 at a concrete input. -/
theorem claim_c4_witness :
    visit [] (.assign ("z".toList) (.num 10) false) = (.ok (some 10), [("z".toList, some 10)]) :=
  claim_c4_reassignment.1 [] [] ("z".toList) (.num 10) (some 10) rfl

/-- C5: the spec demands a `ParseError` when the tokens end before a
closing parenthesis, as in `(1 + 2`.  In the code, `consume` returns
`None` instead of raising when the tokens are exhausted, so `(1 + 2`
parses successfully and the pipeline returns `3.0`. -/
theorem claim_c5_unclosed_paren :
    runLine ("(1 + 2".toList) [] = (.ok (some 3), []) := by
  show ((Except.ok (some ((1 : ℚ) + 2)) : Except Err PyVal), ([] : Env)) = (.ok (some 3), [])
  norm_num

/-- C6: the spec demands a `ParseError` whenever the factor production
meets a token that is neither NUMBER, IDENT nor LPAREN, or no token at
all.  In the code the factor production falls through and returns a
missing (`None`) node on such a token — the line `+` succeeds and prints
`None` — and on exhausted tokens it raises an `AttributeError`, not a
`SyntaxError`. -/
theorem claim_c6_factor_fallthrough :
    (∀ (fl : ℕ) (ts : List Token), parseFactorF (fl + 1) (plusTok :: ts) = .ok (.noneNode, ts))
    ∧ (∀ fl : ℕ, parseFactorF (fl + 1) [] = .error .noneTypeAttr)
    ∧ runLine ("+".toList) [] = (.ok none, [])
    ∧ runLine (" ".toList) [] = (.error .noneTypeAttr, []) :=
  ⟨fun _ _ => rfl, fun _ => rfl, rfl, rfl⟩

/-- C7: an input character belonging to no lexical class (outside any
string literal) makes `tokenize` fail with the lexer's illegal-character
error, and the failed line leaves the environment untouched;
`x := 5 @` errors without binding `x`. -/
theorem claim_c7_lex_error :
    (∀ (cs : List Char) (c : Char), c ∈ cs → goodChar c = false → '"' ∉ cs →
      ∃ c', lex cs = .error (.illegalChar c'))
    ∧ (∀ (cs : List Char) (env : Env) (e : Err), lex cs = .error e →
      runLine cs env = (.error e, env))
    ∧ runLine ("x := 5 @".toList) [] = (.error (.illegalChar '@'), []) := by
  refine ⟨?_, ?_, rfl⟩
  · intro cs c hc hbad hq
    exact lex_bad_char hq hc hbad
  · intro cs env e h
    unfold runLine
    rw [h]

/-- Witness for C7 at concrete inputs. -/
theorem claim_c7_witness :
    (∃ c', lex ("@".toList) = .error (.illegalChar c'))
    ∧ runLine ("#".toList) [] = (.error (.illegalChar '#'), []) :=
  ⟨claim_c7_lex_error.1 ("@".toList) '@' (by decide) (by decide) (by decide),
   claim_c7_lex_error.2.1 ("#".toList) [] (.illegalChar '#') rfl⟩

/-- C8 counterexample: the claim says a `Div` whose right operand is
zero does *not* raise at the evaluator layer (propagating infinity or
NaN instead).  Python raises `ZeroDivisionError` on float division by
zero, so evaluating `1 / 0` errors. -/
theorem claim_c8_counterexample :
    visit [] (.binOp (.num 1) .DIV (.num 0)) = (.error .zeroDivision, []) := by
  simp [visit, pyDiv]

/-- C8 (amended): evaluating a `Div` whose right operand evaluates to
zero has no evaluator-level guard; it follows the host's convention,
which for Python float division is to raise `ZeroDivisionError` — the
error propagates instead of a value. -/
theorem claim_c8_div_zero :
    ∀ (env env1 env2 : Env) (l r : Ast) (a : ℚ),
      visit env l = (.ok (some a), env1) →
      visit env1 r = (.ok (some 0), env2) →
      visit env (.binOp l .DIV r) = (.error .zeroDivision, env2) := by
  intro env env1 env2 l r a hl hr
  simp only [visit]
  rw [hl]
  simp only []
  rw [hr]
  simp only []
  rw [if_neg (by decide), if_neg (by decide), if_neg (by decide)]
  simp [pyDiv]

/-- Witness for C8 at a concrete input. -/
theorem claim_c8_witness :
    visit [] (.binOp (.num 2) .DIV (.num 0)) = (.error .zeroDivision, []) :=
  claim_c8_div_zero [] [] [] (.num 2) (.num 0) 2 rfl rfl

/-- C9 counterexample: the claim says a newline is treated exactly like
whitespace and yields no token.  Tokenizing `1\n` yields a NEWLINE
token, and differs from tokenizing `1 `. -/
theorem claim_c9_counterexample :
    lex ("1\n".toList) = .ok [⟨.NUMBER, ['1']⟩, ⟨.NEWLINE, ['\n']⟩]
    ∧ lex ("1\n".toList) ≠ lex ("1 ".toList) :=
  ⟨rfl, by decide⟩

/-- C9 (amended): the lexer recognizes a newline but, unlike space and
tab, emits a NEWLINE token into the output sequence, which the parser
can see — `(1` followed by a newline and `)` fails with
`Expected RPAREN, got NEWLINE`. -/
theorem claim_c9_newline_token :
    (∀ cs : List Char, lex ('\n' :: cs) = (match lex cs with
      | .error e => .error e
      | .ok ts => .ok (Token.mk .NEWLINE ['\n'] :: ts)))
    ∧ runLine ("(1\n)".toList) [] = (.error (.expectedToken .RPAREN .NEWLINE), []) := by
  refine ⟨?_, rfl⟩
  intro cs
  rw [lex_cons]
  rfl

/-- C10: evaluating any statement the parser can produce touches at most
one environment entry: when the root is an `Assign` only its own name's
entry may change (every other name keeps its previous value, whether the
assignment succeeds or fails), and any other root leaves the environment
exactly as it was. -/
theorem claim_c10_frame :
    ∀ (ts : List Token) (node : Ast) (rest : List Token) (env : Env)
      (res : Except Err PyVal) (env' : Env),
      parseStatement ts = .ok (node, rest) →
      visit env node = (res, env') →
      (∀ (name : List Char) (value : Ast) (d : Bool), node = .assign name value d →
        ∀ k, k ≠ name → envGet env' k = envGet env k)
      ∧ ((∀ (name : List Char) (value : Ast) (d : Bool), node ≠ .assign name value d) →
        env' = env) := by
  intro ts node rest env res env' hp hv
  rcases parseStatement_shape hp with ⟨name, v, d, hnode, hnoassign⟩ | hnoassign
  · subst hnode
    constructor
    · intro name2 value2 d2 heq k hk
      injection heq with hn1 hn2 hn3
      subst hn1
      simp only [visit] at hv
      have hframe := visit_noAssign_frame v env hnoassign
      cases hvv : visit env v with
      | mk resv env1 =>
        rw [hvv] at hv hframe
        simp only [] at hframe
        cases resv with
        | error e =>
          simp only [] at hv
          rw [Prod.mk.injEq] at hv
          rw [← hv.2, hframe]
        | ok val =>
          simp only [] at hv
          by_cases hcond : (d && (envGet env1 name).isSome) = true
          · rw [if_pos hcond] at hv
            rw [Prod.mk.injEq] at hv
            rw [← hv.2, hframe]
          · rw [if_neg hcond] at hv
            rw [Prod.mk.injEq] at hv
            rw [← hv.2, hframe, envGet_envSet, if_neg hk]
    · intro hne
      exact absurd rfl (hne name v d)
  · constructor
    · intro name value d heq
      rw [heq] at hnoassign
      simp [NoAssign] at hnoassign
    · intro _
      have hframe := visit_noAssign_frame node env hnoassign
      rw [hv] at hframe
      exact hframe

/-- Witness for C10 at a concrete statement. -/
theorem claim_c10_witness :
    envGet [("x".toList, some 5)] ("y".toList) = envGet ([] : Env) ("y".toList) :=
  (claim_c10_frame [⟨.IDENT, "x".toList⟩, ⟨.ASSIGN, ":=".toList⟩, ⟨.NUMBER, "5".toList⟩]
    (.assign ("x".toList) (.num (pyFloat "5".toList)) true) [] []
    (.ok (some (pyFloat "5".toList))) [("x".toList, some (pyFloat "5".toList))]
    rfl rfl).1 ("x".toList) (.num (pyFloat "5".toList)) true rfl ("y".toList) (by decide)

/-- Witness for C1's general part at a concrete input. -/
theorem claim_c1_witness :
    parseStatementF 5 [⟨.IDENT, "x".toList⟩, plusTok] = parseExpressionF 5 [plusTok] :=
  claim_c1_ident_fallthrough.1 5 ("x".toList) plusTok [] (by decide) (by decide)

/-- Witness for C2's general part at a concrete expression. -/
theorem claim_c2_witness :
    runLine (renderE (AExpr.base (ATerm.base (AFactor.num ⟨[2], none⟩)))) []
      = (.ok (some 2), []) :=
  claim_c2_arith_correct.1 (AExpr.base (ATerm.base (AFactor.num ⟨[2], none⟩))) 2 []
    (by decide) rfl
